/-
  Verification of the SteelMC world-generation core against its specification.

  The Rust sources are shallowly embedded in Lean 4:
  - IEEE-754 binary32 / binary64 values are modelled as dyadic rationals
    (an integer significand together with a power-of-two exponent, type `Dy`);
    every rounded machine operation is embedded as the exact rational operation
    followed by `dyRnd`, round-to-nearest-even onto the corresponding grid.
    Overflow to infinity is not modelled (all values handled by the claims stay
    far below the overflow thresholds); NaN is modelled by `Option Dy` where the
    source can produce it (square root of a negative number).
  - Machine integers are embedded as `ℤ` with explicit wrapping (`wrap32`)
    exactly where the source uses wrapping arithmetic or can overflow.
  - Fallible or NaN-producing code returns `Option`.

  The semantic value of a dyadic is given by `Dy.val : Dy → ℚ`, and rounding is
  related to the specification-level rounding function `rndSpec` (defined with
  `Int.log`) by the bridge lemma `val_ratRnd`.
-/
import Mathlib

namespace SteelMC

/-! ### Dyadic rationals: executable model of binary floating-point values

A value `⟨m, e⟩ : Dy` denotes the rational `m * 2 ^ e`.  The representation is
not canonical; all statements about values go through `Dy.val`. -/

structure Dy where
  m : ℤ
  e : ℤ
deriving DecidableEq, Repr

instance : Inhabited Dy := ⟨⟨0, 0⟩⟩

/-- semantic value of a dyadic: `m * 2 ^ e` as a rational. -/
def Dy.val (d : Dy) : ℚ := (d.m : ℚ) * 2 ^ d.e

/-- power of two as an integer, for nonnegative exponents (`2 ^ k.toNat`);
implemented with `Nat.shiftLeft` so that it evaluates fast inside the kernel. -/
def ipow2 (k : ℤ) : ℤ := ((Nat.shiftLeft 1 k.toNat : ℕ) : ℤ)

/-- fuel-driven floor of the base-2 logarithm: `nlog2 fuel n` halves `n` until
it reaches 1.  With `fuel ≥ n` and `n ≥ 1` it computes the floor of log2 n. -/
def nlog2 : ℕ → ℕ → ℕ
  | 0, _ => 0
  | f + 1, n => if n ≤ 1 then 0 else nlog2 f (n / 2) + 1

/-- floor of the base-2 logarithm of a positive natural. -/
def flog2 (n : ℕ) : ℕ := nlog2 n n

/-- round-to-nearest-even of the quotient `a / b` (for `b > 0`), as an integer. -/
def rdivEven (a b : ℤ) : ℤ :=
  if 2 * (a - Int.fdiv a b * b) < b then Int.fdiv a b
  else if b < 2 * (a - Int.fdiv a b * b) then Int.fdiv a b + 1
  else if Int.fdiv a b % 2 = 0 then Int.fdiv a b else Int.fdiv a b + 1

/-- floor of the base-2 logarithm of the quotient `a / b`, for `a, b > 0`. -/
def flogPair (a b : ℤ) : ℤ :=
  let l0 : ℤ := (flog2 a.toNat : ℤ) - (flog2 b.toNat : ℤ)
  if 0 ≤ l0 then (if b * ipow2 l0 ≤ a then l0 else l0 - 1)
  else (if b ≤ a * ipow2 (-l0) then l0 else l0 - 1)

/-- round the rational `a / b` (for `b > 0`) to the floating-point grid with
`prec` significand bits and minimum exponent `emin`, round-to-nearest-even. -/
def ratRnd (prec : ℕ) (emin : ℤ) (a b : ℤ) : Dy :=
  if a = 0 then ⟨0, 0⟩
  else
    let s : ℤ := if 0 < a then 1 else -1
    let l := flogPair (s * a) b
    let e := max (l - ((prec : ℤ) - 1)) emin
    if 0 ≤ e then ⟨rdivEven a (b * ipow2 e), e⟩
    else ⟨rdivEven (a * ipow2 (-e)) b, e⟩

/-- round a dyadic onto a floating-point grid. -/
def dyRnd (prec : ℕ) (emin : ℤ) (d : Dy) : Dy :=
  if 0 ≤ d.e then ratRnd prec emin (d.m * ipow2 d.e) 1
  else ratRnd prec emin d.m (ipow2 (-d.e))

/-- exact sum of two dyadics (exponents aligned to the smaller one). -/
def dyAdd (x y : Dy) : Dy :=
  if x.e ≤ y.e then ⟨x.m + y.m * ipow2 (y.e - x.e), x.e⟩
  else ⟨y.m + x.m * ipow2 (x.e - y.e), y.e⟩

/-- exact product of two dyadics. -/
def dyMul (x y : Dy) : Dy := ⟨x.m * y.m, x.e + y.e⟩

/-- exact negation of a dyadic. -/
def dyNeg (x : Dy) : Dy := ⟨-x.m, x.e⟩

/-- exact difference of two dyadics. -/
def dySub (x y : Dy) : Dy := dyAdd x (dyNeg y)

/-- exact absolute value of a dyadic. -/
def dyAbs (x : Dy) : Dy := ⟨|x.m|, x.e⟩

/-- executable comparison of dyadic values. -/
def dyLe (x y : Dy) : Bool :=
  if x.e ≤ y.e then x.m ≤ y.m * ipow2 (y.e - x.e)
  else x.m * ipow2 (x.e - y.e) ≤ y.m

/-- executable strict comparison of dyadic values. -/
def dyLt (x y : Dy) : Bool :=
  if x.e ≤ y.e then x.m < y.m * ipow2 (y.e - x.e)
  else x.m * ipow2 (x.e - y.e) < y.m

/-- executable equality test on dyadic values. -/
def dyEq (x y : Dy) : Bool :=
  if x.e ≤ y.e then x.m = y.m * ipow2 (y.e - x.e)
  else x.m * ipow2 (x.e - y.e) = y.m

/-- truncation of a dyadic value toward zero, as an integer (a float-to-integer
cast before saturation). -/
def dyTrunc (d : Dy) : ℤ :=
  if 0 ≤ d.e then d.m * ipow2 d.e else Int.tdiv d.m (ipow2 (-d.e))

/-- floor of a dyadic value, as an integer. -/
def dyFloor (d : Dy) : ℤ :=
  if 0 ≤ d.e then d.m * ipow2 d.e else Int.fdiv d.m (ipow2 (-d.e))

/-- truncation of the quotient of two dyadic values toward zero (used by the
exact floating-point remainder).  Division by a zero value yields 0 (the
sources never divide by zero on the embedded paths). -/
def dyTruncQuot (a b : Dy) : ℤ :=
  if b.e ≤ a.e then Int.tdiv (a.m * ipow2 (a.e - b.e)) b.m
  else Int.tdiv a.m (b.m * ipow2 (b.e - a.e))

/-! ### Rounded machine operations

`f32…` operations round onto the binary32 grid (24 significand bits, minimum
exponent −149), `f64…` operations onto the binary64 grid (53 bits, −1074). -/

/-- binary32 rounding. -/
def rnd32 (d : Dy) : Dy := dyRnd 24 (-149) d

/-- binary64 rounding. -/
def rnd64 (d : Dy) : Dy := dyRnd 53 (-1074) d

/-- f32 addition: exact sum, then binary32 rounding. -/
def f32add (x y : Dy) : Dy := rnd32 (dyAdd x y)

/-- f32 subtraction: exact difference, then binary32 rounding. -/
def f32sub (x y : Dy) : Dy := rnd32 (dySub x y)

/-- f32 multiplication: exact product, then binary32 rounding. -/
def f32mul (x y : Dy) : Dy := rnd32 (dyMul x y)

/-- f64 addition: exact sum, then binary64 rounding. -/
def f64add (x y : Dy) : Dy := rnd64 (dyAdd x y)

/-- f64 subtraction: exact difference, then binary64 rounding. -/
def f64sub (x y : Dy) : Dy := rnd64 (dySub x y)

/-- f64 multiplication: exact product, then binary64 rounding. -/
def f64mul (x y : Dy) : Dy := rnd64 (dyMul x y)

/-- rounded division of dyadics onto a floating-point grid.  Division by zero
returns 0 (in IEEE it would give an infinity or NaN; the embedded code only
divides by nonzero constants). -/
def dyDiv (prec : ℕ) (emin : ℤ) (a b : Dy) : Dy :=
  if b.m = 0 then ⟨0, 0⟩
  else
    let n := if b.e ≤ a.e then a.m * ipow2 (a.e - b.e) else a.m
    let d := if b.e ≤ a.e then b.m else b.m * ipow2 (b.e - a.e)
    if 0 < d then ratRnd prec emin n d else ratRnd prec emin (-n) (-d)

/-- f32 division. -/
def f32div (x y : Dy) : Dy := dyDiv 24 (-149) x y

/-- f64 division. -/
def f64div (x y : Dy) : Dy := dyDiv 53 (-1074) x y

/-- conversion of a machine integer to f32 (rounds to nearest). -/
def i64ToF32 (n : ℤ) : Dy := rnd32 ⟨n, 0⟩

/-- conversion of a machine integer to f64 (rounds to nearest; exact for
integers below 2^53, in particular for every i32). -/
def i64ToF64 (n : ℤ) : Dy := rnd64 ⟨n, 0⟩

/-- exact floating-point remainder, matching the semantics of the IEEE
operation behind the `%` operator on Rust floats: the remainder of truncated
division, computed exactly (it is always representable, so no rounding step is
needed). -/
def dyFmod (a b : Dy) : Dy := dySub a (dyMul b ⟨dyTruncQuot a b, 0⟩)

/-- correctly rounded f32 square root of a nonnegative dyadic, `⟨m, e⟩` with
`m ≥ 0`.  The result exponent is obtained from the floor of half the value's
log2; the result significand is the round-to-nearest integer square root at
that scale, with ties broken to even. -/
def dySqrt32 (d : Dy) : Dy :=
  if d.m ≤ 0 then ⟨0, 0⟩
  else
    let l : ℤ := (flog2 d.m.toNat : ℤ) + d.e
    let es : ℤ := max (Int.fdiv l 2 - 23) (-149)
    -- significand target: round (sqrt (m * 2 ^ (e - 2 * es))) to nearest even
    let t : ℤ := d.e - 2 * es
    let base : ℕ := if 0 ≤ t then (d.m * ipow2 t).toNat else (Int.fdiv d.m (ipow2 (-t))).toNat
    let n0 : ℕ := Nat.sqrt base
    -- compare 4 * m * 2 ^ t with (2 * n0 + 1) ^ 2 to decide rounding direction
    let lhs : ℤ := if 0 ≤ t then 4 * d.m * ipow2 t else 4 * d.m
    let rhs : ℤ := if 0 ≤ t then ((2 * n0 + 1) ^ 2 : ℕ) else ((2 * n0 + 1) ^ 2 : ℕ) * ipow2 (-t)
    if lhs < rhs then ⟨(n0 : ℤ), es⟩
    else if rhs < lhs then ⟨(n0 : ℤ) + 1, es⟩
    else if n0 % 2 = 0 then ⟨(n0 : ℤ), es⟩ else ⟨(n0 : ℤ) + 1, es⟩

/-- wrapping of an unbounded integer into the i32 range, matching two's
complement overflow semantics. -/
def wrap32 (n : ℤ) : ℤ := (n + 2147483648) % 4294967296 - 2147483648

/-! ### Specification-level rounding on ℚ

`rndSpec prec emin` is round-to-nearest-even onto the grid of rationals
`m * 2 ^ e` with `|m| < 2 ^ prec` and `e ≥ emin`, defined through `Int.log`.
The executable `ratRnd` is related to it by the bridge lemma `val_ratRnd`
below. -/

/-- round-to-nearest-even of a rational, as an integer. -/
def roundEvenQ (q : ℚ) : ℤ :=
  if q - ⌊q⌋ < 1 / 2 then ⌊q⌋
  else if 1 / 2 < q - ⌊q⌋ then ⌊q⌋ + 1
  else if ⌊q⌋ % 2 = 0 then ⌊q⌋ else ⌊q⌋ + 1

/-- grid exponent used when rounding `q` at precision `prec` above `emin`. -/
def cexp (prec : ℕ) (emin : ℤ) (q : ℚ) : ℤ :=
  max (Int.log 2 |q| - ((prec : ℤ) - 1)) emin

/-- specification-level round-to-nearest-even onto the floating-point grid. -/
def rndSpec (prec : ℕ) (emin : ℤ) (q : ℚ) : ℚ :=
  if q = 0 then 0
  else (roundEvenQ (q / 2 ^ cexp prec emin q) : ℚ) * 2 ^ cexp prec emin q

/-- membership in the floating-point grid (representability). -/
def FRepr (prec : ℕ) (emin : ℤ) (q : ℚ) : Prop :=
  ∃ m e : ℤ, q = (m : ℚ) * 2 ^ e ∧ |m| < 2 ^ prec ∧ emin ≤ e

theorem roundEvenQ_intCast (n : ℤ) : roundEvenQ (n : ℚ) = n := by
  unfold roundEvenQ
  rw [Int.floor_intCast]
  norm_num

theorem roundEvenQ_cast_le (q : ℚ) : (roundEvenQ q : ℚ) ≤ q + 1 / 2 := by
  have hfl : (⌊q⌋ : ℚ) ≤ q := Int.floor_le q
  have hlt : q < ⌊q⌋ + 1 := Int.lt_floor_add_one q
  unfold roundEvenQ
  split
  · linarith
  · split
    · push_cast; linarith
    · split
      · linarith
      · push_cast; linarith

theorem le_roundEvenQ_cast (q : ℚ) : q - 1 / 2 ≤ (roundEvenQ q : ℚ) := by
  have hfl : (⌊q⌋ : ℚ) ≤ q := Int.floor_le q
  have hlt : q < ⌊q⌋ + 1 := Int.lt_floor_add_one q
  unfold roundEvenQ
  split
  · linarith
  · split
    · push_cast; linarith
    · split
      · linarith
      · push_cast; linarith

theorem roundEvenQ_nonpos {q : ℚ} (h : q ≤ 0) : roundEvenQ q ≤ 0 := by
  have := roundEvenQ_cast_le q
  have h2 : (roundEvenQ q : ℚ) ≤ 1 / 2 := by linarith
  by_contra hc
  push_neg at hc
  have h3 : (1 : ℤ) ≤ roundEvenQ q := hc
  have : (1 : ℚ) ≤ (roundEvenQ q : ℚ) := by exact_mod_cast h3
  linarith

theorem roundEvenQ_nonneg {q : ℚ} (h : 0 ≤ q) : 0 ≤ roundEvenQ q := by
  have := le_roundEvenQ_cast q
  have h2 : (-(1 / 2) : ℚ) ≤ (roundEvenQ q : ℚ) := by linarith
  by_contra hc
  push_neg at hc
  have h3 : roundEvenQ q ≤ -1 := by omega
  have : (roundEvenQ q : ℚ) ≤ ((-1 : ℤ) : ℚ) := by exact_mod_cast h3
  push_cast at this
  linarith

theorem roundEvenQ_neg (q : ℚ) : roundEvenQ (-q) = -roundEvenQ q := by
  rcases eq_or_ne (q - ⌊q⌋) 0 with h0 | h0
  · have hq : q = (⌊q⌋ : ℚ) := by linarith [sub_eq_zero.mp h0]
    rw [hq]
    rw [← Int.cast_neg, roundEvenQ_intCast, roundEvenQ_intCast]
  · have hfl : (⌊q⌋ : ℚ) ≤ q := Int.floor_le q
    have hlt : q < ⌊q⌋ + 1 := Int.lt_floor_add_one q
    have hpos : 0 < q - ⌊q⌋ := lt_of_le_of_ne (by linarith) (Ne.symm h0)
    have hnegfl : ⌊-q⌋ = -⌊q⌋ - 1 := by
      apply Int.floor_eq_iff.mpr
      constructor
      · push_cast; linarith
      · push_cast; linarith
    have hfrac : -q - (⌊-q⌋ : ℚ) = 1 - (q - ⌊q⌋) := by
      rw [hnegfl]; push_cast; ring
    rcases lt_trichotomy (q - ⌊q⌋) (1 / 2) with hlow | heq | hhigh
    · have hR : roundEvenQ q = ⌊q⌋ := by
        unfold roundEvenQ; rw [if_pos hlow]
      have hL : roundEvenQ (-q) = ⌊-q⌋ + 1 := by
        unfold roundEvenQ
        rw [if_neg (by rw [hfrac]; linarith), if_pos (by rw [hfrac]; linarith)]
      rw [hL, hR, hnegfl]; ring
    · have hR : roundEvenQ q = if ⌊q⌋ % 2 = 0 then ⌊q⌋ else ⌊q⌋ + 1 := by
        unfold roundEvenQ; rw [if_neg (by linarith), if_neg (by linarith)]
      have hL : roundEvenQ (-q) = if ⌊-q⌋ % 2 = 0 then ⌊-q⌋ else ⌊-q⌋ + 1 := by
        unfold roundEvenQ
        rw [if_neg (by rw [hfrac]; linarith), if_neg (by rw [hfrac]; linarith)]
      rw [hL, hR, hnegfl]
      by_cases hev : ⌊q⌋ % 2 = 0
      · rw [if_pos hev, if_neg (by omega)]; ring
      · rw [if_neg hev, if_pos (by omega)]; ring
    · have hR : roundEvenQ q = ⌊q⌋ + 1 := by
        unfold roundEvenQ; rw [if_neg (by linarith), if_pos hhigh]
      have hL : roundEvenQ (-q) = ⌊-q⌋ := by
        unfold roundEvenQ; rw [if_pos (by rw [hfrac]; linarith)]
      rw [hL, hR, hnegfl]; ring

/-! ### Interval and fixed-point lemmas for the specification rounding -/

theorem two_zpow_pos (e : ℤ) : (0 : ℚ) < 2 ^ e := zpow_pos (by norm_num) e

theorem zpow_log_le {x : ℚ} (hx : 0 < x) : (2 : ℚ) ^ Int.log 2 x ≤ x := by
  have h : ((2 : ℕ) : ℚ) ^ Int.log 2 x ≤ x := Int.zpow_log_le_self (by norm_num) hx
  simpa using h

theorem lt_zpow_log_succ (x : ℚ) : x < (2 : ℚ) ^ (Int.log 2 x + 1) := by
  have h : x < ((2 : ℕ) : ℚ) ^ (Int.log 2 x + 1) := Int.lt_zpow_succ_log_self (by norm_num) x
  simpa using h

theorem log_le_log_of_le {x y : ℚ} (hx : 0 < x) (hxy : x ≤ y) :
    Int.log 2 x ≤ Int.log 2 y :=
  Int.log_mono_right hx hxy

theorem log_eq_of_bounds {x : ℚ} {k : ℤ} (hx : 0 < x)
    (h1 : (2 : ℚ) ^ k ≤ x) (h2 : x < 2 ^ (k + 1)) : Int.log 2 x = k := by
  have hlo : k ≤ Int.log 2 x := by
    have h3 : Int.log 2 ((2 : ℚ) ^ k) ≤ Int.log 2 x :=
      log_le_log_of_le (two_zpow_pos k) h1
    have h4 : Int.log 2 ((2 : ℚ) ^ k) = k := by
      have h5 : Int.log 2 (((2 : ℕ) : ℚ) ^ k) = k := Int.log_zpow (by norm_num) k
      simpa using h5
    omega
  have hhi : Int.log 2 x ≤ k := by
    by_contra hc
    push_neg at hc
    have h3 : (2 : ℚ) ^ (k + 1) ≤ 2 ^ Int.log 2 x :=
      zpow_le_zpow_right₀ (by norm_num) hc
    have h4 : (2 : ℚ) ^ Int.log 2 x ≤ x := zpow_log_le hx
    linarith
  omega

theorem FRepr_neg {prec : ℕ} {emin : ℤ} {q : ℚ} (h : FRepr prec emin q) :
    FRepr prec emin (-q) := by
  obtain ⟨m, e, rfl, hm, he⟩ := h
  exact ⟨-m, e, by push_cast; ring, by simpa using hm, he⟩

theorem FRepr_intCast {prec : ℕ} {emin : ℤ} (n : ℤ)
    (hn : |n| < 2 ^ prec) (he : emin ≤ 0) : FRepr prec emin (n : ℚ) :=
  ⟨n, 0, by norm_num, hn, he⟩

/-- a representable nonzero value is an integer multiple of its own grid step,
and of any coarser grid step below it. -/
theorem FRepr_mult_of_le {prec : ℕ} {emin : ℤ} {q : ℚ} {E : ℤ}
    (h : FRepr prec emin q) (hq : 0 < q)
    (hE : E ≤ cexp prec emin q) : ∃ k : ℤ, q = (k : ℚ) * 2 ^ E := by
  obtain ⟨m, e, hqe, hm, he⟩ := h
  have hEe : E ≤ e := by
    have h1 : Int.log 2 |q| - ((prec : ℤ) - 1) ≤ e := by
      have habs : |q| = |(m : ℚ)| * 2 ^ e := by
        rw [hqe, abs_mul, abs_of_pos (two_zpow_pos e)]
      have hlt : |q| < 2 ^ ((prec : ℤ) + e) := by
        rw [habs, zpow_add₀ (by norm_num : (2:ℚ) ≠ 0)]
        have hmq : |(m : ℚ)| < 2 ^ (prec : ℤ) := by
          have hcast : ((|m| : ℤ) : ℚ) < ((2 ^ prec : ℤ) : ℚ) := by exact_mod_cast hm
          rw [Int.cast_abs] at hcast
          calc |(m : ℚ)| < ((2 ^ prec : ℤ) : ℚ) := hcast
            _ = 2 ^ (prec : ℤ) := by push_cast; rw [zpow_natCast]
        exact mul_lt_mul_of_pos_right hmq (two_zpow_pos e)
      have hql : 0 < |q| := abs_pos.mpr (ne_of_gt hq)
      by_contra hc
      push_neg at hc
      have h2 : (prec : ℤ) + e ≤ Int.log 2 |q| := by omega
      have h3 : (2 : ℚ) ^ ((prec : ℤ) + e) ≤ 2 ^ Int.log 2 |q| :=
        zpow_le_zpow_right₀ (by norm_num) h2
      have h4 : (2 : ℚ) ^ Int.log 2 |q| ≤ |q| := zpow_log_le hql
      linarith
    have h2 : cexp prec emin q ≤ e := max_le (by omega) he
    omega
  refine ⟨m * 2 ^ (e - E).toNat, ?_⟩
  have hsplit : (2 : ℚ) ^ e = 2 ^ (((e - E).toNat : ℕ) : ℤ) * 2 ^ E := by
    rw [← zpow_add₀ (by norm_num : (2:ℚ) ≠ 0)]
    congr 1
    omega
  rw [hqe, hsplit, Int.cast_mul, Int.cast_pow]
  push_cast
  rw [zpow_natCast]
  ring

theorem rndSpec_zero (prec : ℕ) (emin : ℤ) : rndSpec prec emin 0 = 0 := by
  simp [rndSpec]

theorem rndSpec_fix {prec : ℕ} {emin : ℤ} {q : ℚ} (h : FRepr prec emin q) :
    rndSpec prec emin q = q := by
  rcases eq_or_ne q 0 with rfl | hq0
  · exact rndSpec_zero prec emin
  · have hq : ∃ k : ℤ, q = (k : ℚ) * 2 ^ cexp prec emin q := by
      rcases lt_or_gt_of_ne hq0 with hneg | hpos
      · obtain ⟨k, hk⟩ := FRepr_mult_of_le (FRepr_neg h) (by linarith)
          (le_refl (cexp prec emin (-q)))
        refine ⟨-k, ?_⟩
        have hcexp : cexp prec emin (-q) = cexp prec emin q := by
          unfold cexp; rw [abs_neg]
        rw [hcexp] at hk
        push_cast
        linarith
      · exact FRepr_mult_of_le h hpos (le_refl _)
    obtain ⟨k, hk⟩ := hq
    unfold rndSpec
    rw [if_neg hq0]
    set E := cexp prec emin q with hE
    have hdiv : q / 2 ^ E = (k : ℚ) := by
      rw [hk]
      field_simp
    rw [hdiv, roundEvenQ_intCast]
    exact hk.symm

theorem rndSpec_nonneg {prec : ℕ} {emin : ℤ} {q : ℚ} (h : 0 ≤ q) :
    0 ≤ rndSpec prec emin q := by
  rcases eq_or_ne q 0 with rfl | hq0
  · rw [rndSpec_zero]
  · unfold rndSpec
    rw [if_neg hq0]
    have h1 : 0 ≤ roundEvenQ (q / 2 ^ cexp prec emin q) :=
      roundEvenQ_nonneg (div_nonneg h (two_zpow_pos _).le)
    have h2 : (0 : ℚ) ≤ (roundEvenQ (q / 2 ^ cexp prec emin q) : ℚ) := by
      exact_mod_cast h1
    exact mul_nonneg h2 (two_zpow_pos _).le

theorem rndSpec_le_of_pos {prec : ℕ} {emin : ℤ} {x b : ℚ}
    (hx : 0 < x) (hxb : x ≤ b) (hb : FRepr prec emin b) :
    rndSpec prec emin x ≤ b := by
  have hbpos : 0 < b := lt_of_lt_of_le hx hxb
  set E := cexp prec emin x with hE
  set n := roundEvenQ (x / 2 ^ E) with hn
  have hval : rndSpec prec emin x = (n : ℚ) * 2 ^ E := by
    unfold rndSpec
    rw [if_neg (ne_of_gt hx)]
  rw [hval]
  by_contra hc
  push_neg at hc
  have hbE : E ≤ cexp prec emin b := by
    have hlog : Int.log 2 |x| ≤ Int.log 2 |b| := by
      rw [abs_of_pos hx, abs_of_pos hbpos]
      exact log_le_log_of_le hx hxb
    unfold cexp
    unfold cexp at hE
    rw [hE]
    exact max_le_max (by omega) (le_refl emin)
  obtain ⟨k, hk⟩ := FRepr_mult_of_le hb hbpos hbE
  have h2 := two_zpow_pos E
  have hkn : (k : ℚ) < (n : ℚ) := by
    have hlt : (k : ℚ) * 2 ^ E < (n : ℚ) * 2 ^ E := by rw [← hk]; exact hc
    exact lt_of_mul_lt_mul_right hlt h2.le
  have hkn2 : k + 1 ≤ n := by exact_mod_cast hkn
  have hkn3 : (k : ℚ) ≤ (n : ℚ) - 1 := by
    have : ((k + 1 : ℤ) : ℚ) ≤ ((n : ℤ) : ℚ) := by exact_mod_cast hkn2
    push_cast at this
    linarith
  have hub : (n : ℚ) ≤ x / 2 ^ E + 1 / 2 := roundEvenQ_cast_le _
  have hx2 : (n : ℚ) * 2 ^ E ≤ x + 2 ^ E / 2 := by
    have h3 := mul_le_mul_of_nonneg_right hub h2.le
    rw [add_mul, div_mul_cancel₀ _ (ne_of_gt h2)] at h3
    linarith
  have hkb : b ≤ (n : ℚ) * 2 ^ E - 2 ^ E := by
    rw [hk]
    have h3 := mul_le_mul_of_nonneg_right hkn3 h2.le
    rw [sub_mul, one_mul] at h3
    linarith
  linarith

theorem le_rndSpec_of_pos {prec : ℕ} {emin : ℤ} {a x : ℚ} (hprec : 1 ≤ prec)
    (ha : 0 < a) (hax : a ≤ x) (hfa : FRepr prec emin a) :
    a ≤ rndSpec prec emin x := by
  have hx : 0 < x := lt_of_lt_of_le ha hax
  set E := cexp prec emin x with hE
  set n := roundEvenQ (x / 2 ^ E) with hn
  have hval : rndSpec prec emin x = (n : ℚ) * 2 ^ E := by
    unfold rndSpec
    rw [if_neg (ne_of_gt hx)]
  rw [hval]
  by_contra hc
  push_neg at hc
  have h2 := two_zpow_pos E
  have hnlb : x / 2 ^ E - 1 / 2 ≤ (n : ℚ) := le_roundEvenQ_cast _
  have hxub : x ≤ (n : ℚ) * 2 ^ E + 2 ^ E / 2 := by
    have h3 := mul_le_mul_of_nonneg_right hnlb h2.le
    rw [sub_mul, div_mul_cancel₀ _ (ne_of_gt h2)] at h3
    linarith
  -- from a multiple of the grid step we derive the contradiction
  have hgrid : (∃ k : ℤ, a = (k : ℚ) * 2 ^ E) → False := by
    rintro ⟨k, hk⟩
    have hkn : (n : ℚ) < (k : ℚ) := by
      have hlt : (n : ℚ) * 2 ^ E < (k : ℚ) * 2 ^ E := by rw [← hk]; exact hc
      exact lt_of_mul_lt_mul_right hlt h2.le
    have hkn2 : n + 1 ≤ k := by exact_mod_cast hkn
    have hkn3 : (n : ℚ) + 1 ≤ (k : ℚ) := by
      have : ((n + 1 : ℤ) : ℚ) ≤ ((k : ℤ) : ℚ) := by exact_mod_cast hkn2
      push_cast at this
      linarith
    have hka : (n : ℚ) * 2 ^ E + 2 ^ E ≤ a := by
      rw [hk]
      have h3 := mul_le_mul_of_nonneg_right hkn3 h2.le
      rw [add_mul, one_mul] at h3
      linarith
    linarith
  have hL : Int.log 2 |x| = Int.log 2 x := by rw [abs_of_pos hx]
  rcases le_total (Int.log 2 |x| - ((prec : ℤ) - 1)) emin with hcase | hcase
  · -- the grid step is the minimum exponent, so a is on the grid
    have hEmin : E = emin := by
      unfold cexp at hE
      rw [hE]
      exact max_eq_right hcase
    apply hgrid
    apply FRepr_mult_of_le hfa ha
    rw [hEmin]
    exact le_max_right _ _
  · have hEL : E = Int.log 2 x - ((prec : ℤ) - 1) := by
      unfold cexp at hE
      rw [hL] at hcase
      rw [hE, hL]
      exact max_eq_left hcase
    have hxL : (2 : ℚ) ^ Int.log 2 x ≤ x := zpow_log_le hx
    rcases le_or_lt ((2 : ℚ) ^ Int.log 2 x) a with hge | hlt
    · -- a lies in the same binade as x, hence on the same grid
      have hLa : Int.log 2 a = Int.log 2 x :=
        log_eq_of_bounds ha hge (lt_of_le_of_lt hax (lt_zpow_log_succ x))
      apply hgrid
      apply FRepr_mult_of_le hfa ha
      unfold cexp
      rw [abs_of_pos ha, hLa, hEL]
      exact le_max_left _ _
    · -- a lies below the binade of x; the rounding cannot cross the binade
      have hsplit : (2 : ℚ) ^ Int.log 2 x = 2 ^ E * 2 ^ ((prec : ℤ) - 1) := by
        rw [← zpow_add₀ (by norm_num : (2:ℚ) ≠ 0)]
        congr 1
        omega
      have hnsmall : (n : ℚ) < 2 ^ ((prec : ℤ) - 1) := by
        have h3 : (n : ℚ) * 2 ^ E < 2 ^ E * 2 ^ ((prec : ℤ) - 1) := by
          calc (n : ℚ) * 2 ^ E < a := hc
            _ < 2 ^ Int.log 2 x := hlt
            _ = 2 ^ E * 2 ^ ((prec : ℤ) - 1) := hsplit
        rw [mul_comm ((2:ℚ) ^ E)] at h3
        exact lt_of_mul_lt_mul_right h3 h2.le
      have hcast : (2 : ℚ) ^ ((prec : ℤ) - 1) = ((2 ^ (prec - 1) : ℤ) : ℚ) := by
        have hpe : (prec : ℤ) - 1 = ((prec - 1 : ℕ) : ℤ) := by omega
        rw [hpe, zpow_natCast]
        push_cast
        ring
      have hn2 : n ≤ 2 ^ (prec - 1) - 1 := by
        have : (n : ℚ) < ((2 ^ (prec - 1) : ℤ) : ℚ) := by rw [← hcast]; exact hnsmall
        have h4 : n < 2 ^ (prec - 1) := by exact_mod_cast this
        omega
      have hn3 : (n : ℚ) ≤ 2 ^ ((prec : ℤ) - 1) - 1 := by
        rw [hcast]
        have : ((n : ℤ) : ℚ) ≤ ((2 ^ (prec - 1) - 1 : ℤ) : ℚ) := by exact_mod_cast hn2
        push_cast at this ⊢
        linarith
      have hfin : x < 2 ^ Int.log 2 x := by
        have h3 := mul_le_mul_of_nonneg_right hn3 h2.le
        rw [sub_mul, one_mul] at h3
        have h4 : (n : ℚ) * 2 ^ E ≤ 2 ^ ((prec : ℤ) - 1) * 2 ^ E - 2 ^ E := h3
        rw [hsplit]
        calc x ≤ (n : ℚ) * 2 ^ E + 2 ^ E / 2 := hxub
          _ ≤ 2 ^ ((prec : ℤ) - 1) * 2 ^ E - 2 ^ E + 2 ^ E / 2 := by linarith
          _ < 2 ^ E * 2 ^ ((prec : ℤ) - 1) := by linarith
      linarith

theorem rndSpec_neg (prec : ℕ) (emin : ℤ) (q : ℚ) :
    rndSpec prec emin (-q) = -rndSpec prec emin q := by
  rcases eq_or_ne q 0 with rfl | hq0
  · simp [rndSpec]
  · unfold rndSpec
    rw [if_neg (neg_ne_zero.mpr hq0), if_neg hq0]
    have hcexp : cexp prec emin (-q) = cexp prec emin q := by
      unfold cexp; rw [abs_neg]
    rw [hcexp, neg_div, roundEvenQ_neg]
    push_cast
    ring

/-- rounding never overshoots a representable upper bound. -/
theorem rndSpec_le {prec : ℕ} {emin : ℤ} {x b : ℚ} (hprec : 1 ≤ prec)
    (hxb : x ≤ b) (hb : FRepr prec emin b) : rndSpec prec emin x ≤ b := by
  rcases lt_trichotomy x 0 with hneg | rfl | hpos
  · rcases le_or_lt 0 b with hb0 | hb0
    · have h1 : 0 ≤ rndSpec prec emin (-x) := rndSpec_nonneg (by linarith)
      rw [rndSpec_neg] at h1
      linarith
    · have h1 : -b ≤ rndSpec prec emin (-x) :=
        le_rndSpec_of_pos hprec (by linarith) (by linarith) (FRepr_neg hb)
      rw [rndSpec_neg] at h1
      linarith
  · rw [rndSpec_zero]
    exact hxb
  · exact rndSpec_le_of_pos hpos hxb hb

/-- rounding never undershoots a representable lower bound. -/
theorem le_rndSpec {prec : ℕ} {emin : ℤ} {a x : ℚ} (hprec : 1 ≤ prec)
    (hax : a ≤ x) (ha : FRepr prec emin a) : a ≤ rndSpec prec emin x := by
  rcases lt_trichotomy a 0 with hneg | rfl | hpos
  · rcases le_or_lt 0 x with hx0 | hx0
    · have h0 : (0 : ℚ) ≤ rndSpec prec emin x := rndSpec_nonneg hx0
      linarith
    · have h1 : rndSpec prec emin (-x) ≤ -a :=
        rndSpec_le_of_pos (by linarith) (by linarith) (FRepr_neg ha)
      rw [rndSpec_neg] at h1
      linarith
  · exact rndSpec_nonneg hax
  · exact le_rndSpec_of_pos hprec hpos hax ha

/-! ### Bridge from the executable rounding to the specification rounding -/

theorem nlog2_spec : ∀ f n : ℕ, 1 ≤ n → n ≤ f →
    2 ^ nlog2 f n ≤ n ∧ n < 2 ^ (nlog2 f n + 1) := by
  intro f
  induction f with
  | zero => intro n h1 h2; omega
  | succ f ih =>
    intro n h1 h2
    by_cases hn : n ≤ 1
    · have hone : n = 1 := by omega
      subst hone
      simp [nlog2]
    · have hstep : nlog2 (f + 1) n = nlog2 f (n / 2) + 1 := by
        simp [nlog2, hn]
      rw [hstep]
      have hrec := ih (n / 2) (by omega) (by omega)
      have hp1 : 2 ^ (nlog2 f (n / 2) + 1) = 2 * 2 ^ nlog2 f (n / 2) := by ring
      have hp2 : 2 ^ (nlog2 f (n / 2) + 1 + 1) = 2 * 2 ^ (nlog2 f (n / 2) + 1) := by
        ring
      omega

theorem flog2_spec {n : ℕ} (h : 1 ≤ n) :
    2 ^ flog2 n ≤ n ∧ n < 2 ^ (flog2 n + 1) :=
  nlog2_spec n n h le_rfl

theorem ipow2_eq (k : ℤ) : ipow2 k = 2 ^ k.toNat := by
  have h : Nat.shiftLeft 1 k.toNat = 2 ^ k.toNat := by
    rw [show Nat.shiftLeft 1 k.toNat = 1 <<< k.toNat from rfl, Nat.shiftLeft_eq,
      one_mul]
  unfold ipow2
  rw [h]
  push_cast
  ring

theorem ipow2_pos (k : ℤ) : 0 < ipow2 k := by
  rw [ipow2_eq]
  positivity

theorem cast_ipow2 {k : ℤ} (hk : 0 ≤ k) : ((ipow2 k : ℤ) : ℚ) = 2 ^ k := by
  rw [ipow2_eq]
  push_cast
  rw [← zpow_natCast]
  congr 1
  omega

theorem cast_pow_nat (A : ℕ) : ((2 ^ A : ℤ) : ℚ) = (2 : ℚ) ^ (A : ℤ) := by
  push_cast
  rw [zpow_natCast]

theorem flogPair_spec {a b : ℤ} (ha : 0 < a) (hb : 0 < b) :
    (2 : ℚ) ^ flogPair a b ≤ (a : ℚ) / (b : ℚ) ∧
    (a : ℚ) / (b : ℚ) < 2 ^ (flogPair a b + 1) := by
  have hbq : (0 : ℚ) < (b : ℚ) := by exact_mod_cast hb
  have hA : 2 ^ flog2 a.toNat ≤ a.toNat ∧ a.toNat < 2 ^ (flog2 a.toNat + 1) :=
    flog2_spec (by omega)
  have hB : 2 ^ flog2 b.toNat ≤ b.toNat ∧ b.toNat < 2 ^ (flog2 b.toNat + 1) :=
    flog2_spec (by omega)
  set A := flog2 a.toNat with hAdef
  set B := flog2 b.toNat with hBdef
  have hA1 : ((2 ^ A : ℤ) : ℚ) ≤ (a : ℚ) := by
    have h2 : ((2 ^ A : ℕ) : ℤ) ≤ (a.toNat : ℤ) := by exact_mod_cast hA.1
    rw [Int.toNat_of_nonneg ha.le] at h2
    push_cast at h2
    exact_mod_cast h2
  have hA2 : (a : ℚ) < ((2 ^ (A + 1) : ℤ) : ℚ) := by
    have h2 : (a.toNat : ℤ) < ((2 ^ (A + 1) : ℕ) : ℤ) := by exact_mod_cast hA.2
    rw [Int.toNat_of_nonneg ha.le] at h2
    push_cast at h2
    exact_mod_cast h2
  have hB1 : ((2 ^ B : ℤ) : ℚ) ≤ (b : ℚ) := by
    have h2 : ((2 ^ B : ℕ) : ℤ) ≤ (b.toNat : ℤ) := by exact_mod_cast hB.1
    rw [Int.toNat_of_nonneg hb.le] at h2
    push_cast at h2
    exact_mod_cast h2
  have hB2 : (b : ℚ) < ((2 ^ (B + 1) : ℤ) : ℚ) := by
    have h2 : (b.toNat : ℤ) < ((2 ^ (B + 1) : ℕ) : ℤ) := by exact_mod_cast hB.2
    rw [Int.toNat_of_nonneg hb.le] at h2
    push_cast at h2
    exact_mod_cast h2
  rw [cast_pow_nat] at hA1 hB1
  rw [cast_pow_nat] at hA2 hB2
  have hupper : (a : ℚ) / (b : ℚ) < 2 ^ ((A : ℤ) - B + 1) := by
    rw [div_lt_iff₀ hbq]
    calc (a : ℚ) < 2 ^ ((A + 1 : ℕ) : ℤ) := hA2
      _ = 2 ^ ((A : ℤ) - B + 1) * 2 ^ (B : ℤ) := by
          rw [← zpow_add₀ (by norm_num : (2:ℚ) ≠ 0)]
          congr 1
          push_cast
          ring
      _ ≤ 2 ^ ((A : ℤ) - B + 1) * (b : ℚ) :=
          mul_le_mul_of_nonneg_left hB1 (two_zpow_pos _).le
  have hlower : 2 ^ ((A : ℤ) - B - 1) < (a : ℚ) / (b : ℚ) := by
    rw [lt_div_iff₀ hbq]
    calc 2 ^ ((A : ℤ) - B - 1) * (b : ℚ)
        < 2 ^ ((A : ℤ) - B - 1) * 2 ^ ((B + 1 : ℕ) : ℤ) :=
          mul_lt_mul_of_pos_left hB2 (two_zpow_pos _)
      _ = 2 ^ ((A : ℤ) : ℤ) := by
          rw [← zpow_add₀ (by norm_num : (2:ℚ) ≠ 0)]
          congr 1
          push_cast
          ring
      _ ≤ (a : ℚ) := by
          have : (2:ℚ) ^ ((A : ℕ) : ℤ) ≤ (a : ℚ) := hA1
          simpa using this
  have hl0 : flogPair a b = if (2 : ℚ) ^ ((A : ℤ) - B) ≤ (a : ℚ) / b
      then (A : ℤ) - B else (A : ℤ) - B - 1 := by
    unfold flogPair
    rw [← hAdef, ← hBdef]
    have htest : ∀ c : Prop, ∀ inst : Decidable c, True := fun _ _ => trivial
    by_cases hsign : (0 : ℤ) ≤ (A : ℤ) - B
    · rw [if_pos hsign]
      have hiff : (b * ipow2 ((A : ℤ) - B) ≤ a) ↔
          ((2 : ℚ) ^ ((A : ℤ) - B) ≤ (a : ℚ) / b) := by
        rw [le_div_iff₀ hbq]
        constructor
        · intro h
          have h1 : ((b * ipow2 ((A : ℤ) - B) : ℤ) : ℚ) ≤ (a : ℚ) := by
            exact_mod_cast h
          rw [Int.cast_mul, cast_ipow2 hsign] at h1
          linarith
        · intro h
          have h1 : ((b * ipow2 ((A : ℤ) - B) : ℤ) : ℚ) ≤ (a : ℚ) := by
            rw [Int.cast_mul, cast_ipow2 hsign]
            linarith
          exact_mod_cast h1
      by_cases htest : b * ipow2 ((A : ℤ) - B) ≤ a
      · rw [if_pos htest, if_pos (hiff.mp htest)]
      · rw [if_neg htest, if_neg (fun hc => htest (hiff.mpr hc))]
    · rw [if_neg hsign]
      push_neg at hsign
      have hnn : (0 : ℤ) ≤ -((A : ℤ) - B) := by omega
      have hiff : (b ≤ a * ipow2 (-((A : ℤ) - B))) ↔
          ((2 : ℚ) ^ ((A : ℤ) - B) ≤ (a : ℚ) / b) := by
        rw [le_div_iff₀ hbq]
        constructor
        · intro h
          have h1 : ((b : ℤ) : ℚ) ≤ ((a * ipow2 (-((A : ℤ) - B)) : ℤ) : ℚ) := by
            exact_mod_cast h
          rw [Int.cast_mul, cast_ipow2 hnn] at h1
          have h2 : (2 : ℚ) ^ ((A : ℤ) - B) * (2 : ℚ) ^ (-((A : ℤ) - B)) = 1 := by
            rw [← zpow_add₀ (by norm_num : (2:ℚ) ≠ 0)]
            norm_num
          calc (2 : ℚ) ^ ((A : ℤ) - B) * (b : ℚ)
              ≤ 2 ^ ((A : ℤ) - B) * ((a : ℚ) * 2 ^ (-((A : ℤ) - B))) :=
                mul_le_mul_of_nonneg_left h1 (two_zpow_pos _).le
            _ = (a : ℚ) * (2 ^ ((A : ℤ) - B) * 2 ^ (-((A : ℤ) - B))) := by ring
            _ = (a : ℚ) := by rw [h2, mul_one]
        · intro h
          have h2 : (2 : ℚ) ^ ((A : ℤ) - B) * (2 : ℚ) ^ (-((A : ℤ) - B)) = 1 := by
            rw [← zpow_add₀ (by norm_num : (2:ℚ) ≠ 0)]
            norm_num
          have h1 : (b : ℚ) ≤ (a : ℚ) * 2 ^ (-((A : ℤ) - B)) := by
            have h3 := mul_le_mul_of_nonneg_left h (two_zpow_pos (-((A : ℤ) - B))).le
            calc (b : ℚ) = 2 ^ (-((A : ℤ) - B)) * (2 ^ ((A : ℤ) - B) * (b : ℚ)) := by
                  rw [← mul_assoc, mul_comm ((2:ℚ) ^ (-((A : ℤ) - B))), h2, one_mul]
              _ ≤ 2 ^ (-((A : ℤ) - B)) * (a : ℚ) := h3
              _ = (a : ℚ) * 2 ^ (-((A : ℤ) - B)) := by ring
          have h4 : ((b : ℤ) : ℚ) ≤ ((a * ipow2 (-((A : ℤ) - B)) : ℤ) : ℚ) := by
            rw [Int.cast_mul, cast_ipow2 hnn]
            exact h1
          exact_mod_cast h4
      by_cases htest : b ≤ a * ipow2 (-((A : ℤ) - B))
      · rw [if_pos htest, if_pos (hiff.mp htest)]
      · rw [if_neg htest, if_neg (fun hc => htest (hiff.mpr hc))]
  rw [hl0]
  by_cases hcase : (2 : ℚ) ^ ((A : ℤ) - B) ≤ (a : ℚ) / b
  · rw [if_pos hcase]
    exact ⟨hcase, hupper⟩
  · rw [if_neg hcase]
    push_neg at hcase
    constructor
    · exact hlower.le
    · have : (A : ℤ) - B - 1 + 1 = (A : ℤ) - B := by ring
      rw [this]
      exact hcase

theorem floor_intCast_div {a b : ℤ} (hb : 0 < b) :
    ⌊(a : ℚ) / (b : ℚ)⌋ = a / b := by
  have hbq : (0 : ℚ) < (b : ℚ) := by exact_mod_cast hb
  have hid : b * (a / b) + a % b = a := Int.ediv_add_emod a b
  have hr0 : 0 ≤ a % b := Int.emod_nonneg a (ne_of_gt hb)
  have hrb : a % b < b := Int.emod_lt_of_pos a hb
  rw [Int.floor_eq_iff]
  constructor
  · rw [le_div_iff₀ hbq]
    have h1 : b * (a / b) ≤ a := by linarith
    have h2 : ((b * (a / b) : ℤ) : ℚ) ≤ ((a : ℤ) : ℚ) := by exact_mod_cast h1
    push_cast at h2
    linarith
  · rw [div_lt_iff₀ hbq]
    have h1 : a < b * (a / b) + b := by linarith
    have h2 : ((a : ℤ) : ℚ) < ((b * (a / b) + b : ℤ) : ℚ) := by exact_mod_cast h1
    push_cast at h2 ⊢
    linarith

theorem rdivEven_eq {a b : ℤ} (hb : 0 < b) :
    rdivEven a b = roundEvenQ ((a : ℚ) / (b : ℚ)) := by
  have hbq : (0 : ℚ) < (b : ℚ) := by exact_mod_cast hb
  have hfd : Int.fdiv a b = a / b := Int.fdiv_eq_ediv a hb.le
  have hr2 : a - a / b * b = a % b := by rw [Int.emod_def]; ring
  have hfl : ⌊(a : ℚ) / (b : ℚ)⌋ = a / b := floor_intCast_div hb
  have hid : b * (a / b) + a % b = a := Int.ediv_add_emod a b
  have hfrac : (a : ℚ) / (b : ℚ) - ((a / b : ℤ) : ℚ) = ((a % b : ℤ) : ℚ) / b := by
    have h2 : ((b * (a / b) + a % b : ℤ) : ℚ) = ((a : ℤ) : ℚ) := by exact_mod_cast hid
    push_cast at h2
    field_simp
    linarith
  have hlt1 : ((a % b : ℤ) : ℚ) / (b : ℚ) < 1 / 2 ↔ 2 * (a % b) < b := by
    rw [div_lt_div_iff₀ hbq (by norm_num : (0:ℚ) < 2)]
    constructor
    · intro h
      have h2 : ((2 * (a % b) : ℤ) : ℚ) < ((b : ℤ) : ℚ) := by push_cast; linarith
      exact_mod_cast h2
    · intro h
      have h2 : ((2 * (a % b) : ℤ) : ℚ) < ((b : ℤ) : ℚ) := by exact_mod_cast h
      push_cast at h2
      linarith
  have hlt2 : (1 : ℚ) / 2 < ((a % b : ℤ) : ℚ) / (b : ℚ) ↔ b < 2 * (a % b) := by
    rw [div_lt_div_iff₀ (by norm_num : (0:ℚ) < 2) hbq]
    constructor
    · intro h
      have h2 : ((b : ℤ) : ℚ) < ((2 * (a % b) : ℤ) : ℚ) := by push_cast; linarith
      exact_mod_cast h2
    · intro h
      have h2 : ((b : ℤ) : ℚ) < ((2 * (a % b) : ℤ) : ℚ) := by exact_mod_cast h
      push_cast at h2
      linarith
  unfold rdivEven roundEvenQ
  rw [hfd, hr2, hfl, hfrac]
  simp only [hlt1, hlt2]

/-! ### Semantic values of the exact dyadic operations -/

theorem val_mk (m e : ℤ) : (Dy.mk m e).val = (m : ℚ) * 2 ^ e := rfl

theorem val_zero_dy : (Dy.mk 0 0).val = 0 := by
  simp [Dy.val]

theorem zpow_split {u v : ℤ} (_h : v ≤ u) :
    (2 : ℚ) ^ u = 2 ^ (u - v) * 2 ^ v := by
  rw [← zpow_add₀ (by norm_num : (2:ℚ) ≠ 0)]
  congr 1
  omega

theorem val_dyAdd (x y : Dy) : (dyAdd x y).val = x.val + y.val := by
  unfold dyAdd Dy.val
  by_cases h : x.e ≤ y.e
  · rw [if_pos h]
    simp only
    rw [Int.cast_add, Int.cast_mul, cast_ipow2 (by omega : (0:ℤ) ≤ y.e - x.e),
      zpow_split h]
    ring
  · rw [if_neg h]
    simp only
    rw [Int.cast_add, Int.cast_mul, cast_ipow2 (by omega : (0:ℤ) ≤ x.e - y.e),
      zpow_split (by omega : y.e ≤ x.e)]
    ring

theorem val_dyMul (x y : Dy) : (dyMul x y).val = x.val * y.val := by
  unfold dyMul Dy.val
  simp only
  rw [Int.cast_mul, zpow_add₀ (by norm_num : (2:ℚ) ≠ 0)]
  ring

theorem val_dyNeg (x : Dy) : (dyNeg x).val = -x.val := by
  unfold dyNeg Dy.val
  push_cast
  ring

theorem val_dySub (x y : Dy) : (dySub x y).val = x.val - y.val := by
  unfold dySub
  rw [val_dyAdd, val_dyNeg]
  ring

theorem val_dyAbs (x : Dy) : (dyAbs x).val = |x.val| := by
  unfold dyAbs Dy.val
  simp only
  rw [abs_mul, abs_of_pos (two_zpow_pos x.e), Int.cast_abs]

theorem dyLe_iff (x y : Dy) : dyLe x y = true ↔ x.val ≤ y.val := by
  unfold dyLe Dy.val
  by_cases h : x.e ≤ y.e
  · rw [if_pos h]
    rw [decide_eq_true_eq]
    constructor
    · intro hle
      have h1 : ((x.m : ℤ) : ℚ) ≤ ((y.m * ipow2 (y.e - x.e) : ℤ) : ℚ) := by
        exact_mod_cast hle
      rw [Int.cast_mul, cast_ipow2 (by omega : (0:ℤ) ≤ y.e - x.e)] at h1
      have h2 := mul_le_mul_of_nonneg_right h1 (two_zpow_pos x.e).le
      rw [mul_assoc, ← zpow_split h] at h2
      exact h2
    · intro hle
      have h2 := mul_le_mul_of_nonneg_right hle (two_zpow_pos (-x.e)).le
      rw [mul_assoc, mul_assoc, ← zpow_add₀ (by norm_num : (2:ℚ) ≠ 0),
        ← zpow_add₀ (by norm_num : (2:ℚ) ≠ 0), add_neg_cancel, zpow_zero,
        mul_one] at h2
      have h3 : (x.m : ℚ) ≤ (y.m : ℚ) * 2 ^ (y.e - x.e) := by
        rw [show y.e + -x.e = y.e - x.e from by ring] at h2
        exact h2
      rw [← cast_ipow2 (by omega : (0:ℤ) ≤ y.e - x.e), ← Int.cast_mul] at h3
      exact_mod_cast h3
  · rw [if_neg h]
    rw [decide_eq_true_eq]
    have hyx : y.e ≤ x.e := by omega
    constructor
    · intro hle
      have h1 : ((x.m * ipow2 (x.e - y.e) : ℤ) : ℚ) ≤ ((y.m : ℤ) : ℚ) := by
        exact_mod_cast hle
      rw [Int.cast_mul, cast_ipow2 (by omega : (0:ℤ) ≤ x.e - y.e)] at h1
      have h2 := mul_le_mul_of_nonneg_right h1 (two_zpow_pos y.e).le
      rw [mul_assoc, ← zpow_split hyx] at h2
      exact h2
    · intro hle
      have h2 := mul_le_mul_of_nonneg_right hle (two_zpow_pos (-y.e)).le
      rw [mul_assoc, mul_assoc, ← zpow_add₀ (by norm_num : (2:ℚ) ≠ 0),
        ← zpow_add₀ (by norm_num : (2:ℚ) ≠ 0), add_neg_cancel, zpow_zero,
        mul_one] at h2
      have h3 : (x.m : ℚ) * 2 ^ (x.e - y.e) ≤ (y.m : ℚ) := by
        rw [show x.e + -y.e = x.e - y.e from by ring] at h2
        exact h2
      rw [← cast_ipow2 (by omega : (0:ℤ) ≤ x.e - y.e), ← Int.cast_mul] at h3
      exact_mod_cast h3

theorem val_shift_eq (y : Dy) (E : ℤ) (h : E ≤ y.e) :
    y.val = ((y.m : ℚ) * 2 ^ (y.e - E)) * 2 ^ E := by
  unfold Dy.val
  rw [zpow_split h]
  ring

theorem dyLt_iff (x y : Dy) : dyLt x y = true ↔ x.val < y.val := by
  unfold dyLt
  by_cases h : x.e ≤ y.e
  · rw [if_pos h, decide_eq_true_eq]
    have hx : x.val = (x.m : ℚ) * 2 ^ x.e := rfl
    have hy : y.val = ((y.m : ℚ) * 2 ^ (y.e - x.e)) * 2 ^ x.e := val_shift_eq y x.e h
    rw [hx, hy, mul_lt_mul_right (two_zpow_pos x.e),
      ← cast_ipow2 (by omega : (0:ℤ) ≤ y.e - x.e), ← Int.cast_mul]
    exact ⟨fun hh => by exact_mod_cast hh, fun hh => by exact_mod_cast hh⟩
  · rw [if_neg h, decide_eq_true_eq]
    have hy : y.val = (y.m : ℚ) * 2 ^ y.e := rfl
    have hx : x.val = ((x.m : ℚ) * 2 ^ (x.e - y.e)) * 2 ^ y.e :=
      val_shift_eq x y.e (by omega)
    rw [hx, hy, mul_lt_mul_right (two_zpow_pos y.e),
      ← cast_ipow2 (by omega : (0:ℤ) ≤ x.e - y.e), ← Int.cast_mul]
    exact ⟨fun hh => by exact_mod_cast hh, fun hh => by exact_mod_cast hh⟩

theorem dyEq_iff (x y : Dy) : dyEq x y = true ↔ x.val = y.val := by
  unfold dyEq
  by_cases h : x.e ≤ y.e
  · rw [if_pos h, decide_eq_true_eq]
    have hx : x.val = (x.m : ℚ) * 2 ^ x.e := rfl
    have hy : y.val = ((y.m : ℚ) * 2 ^ (y.e - x.e)) * 2 ^ x.e := val_shift_eq y x.e h
    rw [hx, hy]
    constructor
    · intro hh
      have hh2 : ((x.m : ℤ) : ℚ) = ((y.m * ipow2 (y.e - x.e) : ℤ) : ℚ) := by
        exact_mod_cast hh
      rw [Int.cast_mul, cast_ipow2 (by omega : (0:ℤ) ≤ y.e - x.e)] at hh2
      rw [hh2]
    · intro hh
      have hh2 : (x.m : ℚ) = (y.m : ℚ) * 2 ^ (y.e - x.e) :=
        mul_right_cancel₀ (ne_of_gt (two_zpow_pos x.e)) hh
      rw [← cast_ipow2 (by omega : (0:ℤ) ≤ y.e - x.e), ← Int.cast_mul] at hh2
      exact_mod_cast hh2
  · rw [if_neg h, decide_eq_true_eq]
    have hy : y.val = (y.m : ℚ) * 2 ^ y.e := rfl
    have hx : x.val = ((x.m : ℚ) * 2 ^ (x.e - y.e)) * 2 ^ y.e :=
      val_shift_eq x y.e (by omega)
    rw [hx, hy]
    constructor
    · intro hh
      have hh2 : ((x.m * ipow2 (x.e - y.e) : ℤ) : ℚ) = ((y.m : ℤ) : ℚ) := by
        exact_mod_cast hh
      rw [Int.cast_mul, cast_ipow2 (by omega : (0:ℤ) ≤ x.e - y.e)] at hh2
      rw [hh2]
    · intro hh
      have hh2 : (x.m : ℚ) * 2 ^ (x.e - y.e) = (y.m : ℚ) :=
        mul_right_cancel₀ (ne_of_gt (two_zpow_pos y.e)) hh
      rw [← cast_ipow2 (by omega : (0:ℤ) ≤ x.e - y.e), ← Int.cast_mul] at hh2
      exact_mod_cast hh2

/-! ### The bridge: executable rounding equals specification rounding -/

theorem val_ratRnd {prec : ℕ} {emin : ℤ} {a b : ℤ} (hb : 0 < b) :
    (ratRnd prec emin a b).val = rndSpec prec emin ((a : ℚ) / (b : ℚ)) := by
  have hbq : (0 : ℚ) < (b : ℚ) := by exact_mod_cast hb
  rcases eq_or_ne a 0 with rfl | ha0
  · unfold ratRnd rndSpec
    norm_num [Dy.val]
  · unfold ratRnd
    rw [if_neg ha0]
    simp only
    have hxq : (a : ℚ) / (b : ℚ) ≠ 0 :=
      div_ne_zero (Int.cast_ne_zero.mpr ha0) (ne_of_gt hbq)
    have hsa : 0 < (if 0 < a then (1 : ℤ) else -1) * a := by
      by_cases hpos : 0 < a
      · rw [if_pos hpos]; omega
      · rw [if_neg hpos]; omega
    have habs : |(a : ℚ) / (b : ℚ)| =
        (((if 0 < a then (1 : ℤ) else -1) * a : ℤ) : ℚ) / (b : ℚ) := by
      rw [abs_div, abs_of_pos hbq]
      by_cases hpos : 0 < a
      · rw [if_pos hpos]
        rw [abs_of_pos (by exact_mod_cast hpos : (0:ℚ) < (a:ℚ))]
        push_cast
        ring
      · have hneg : a < 0 := by omega
        rw [if_neg hpos]
        rw [abs_of_neg (by exact_mod_cast hneg : (a:ℚ) < 0)]
        push_cast
        ring
    have hlog : Int.log 2 |(a : ℚ) / (b : ℚ)| =
        flogPair ((if 0 < a then (1 : ℤ) else -1) * a) b := by
      have hbnd := flogPair_spec hsa hb
      apply log_eq_of_bounds (abs_pos.mpr hxq)
      · rw [habs]; exact hbnd.1
      · rw [habs]; exact hbnd.2
    have hcexp : cexp prec emin ((a : ℚ) / (b : ℚ)) =
        max (flogPair ((if 0 < a then (1 : ℤ) else -1) * a) b - ((prec : ℤ) - 1))
          emin := by
      unfold cexp
      rw [hlog]
    unfold rndSpec
    rw [if_neg hxq, hcexp]
    set e := max (flogPair ((if 0 < a then (1 : ℤ) else -1) * a) b -
      ((prec : ℤ) - 1)) emin with he
    by_cases hce : 0 ≤ e
    · rw [if_pos hce, val_mk]
      rw [rdivEven_eq (mul_pos hb (ipow2_pos e))]
      congr 2
      rw [Int.cast_mul, cast_ipow2 hce, div_div]
    · rw [if_neg hce, val_mk]
      rw [rdivEven_eq hb]
      congr 2
      rw [Int.cast_mul, cast_ipow2 (by omega : (0:ℤ) ≤ -e), zpow_neg]
      ring_nf

theorem val_dyRnd (prec : ℕ) (emin : ℤ) (d : Dy) :
    (dyRnd prec emin d).val = rndSpec prec emin d.val := by
  unfold dyRnd
  by_cases h : 0 ≤ d.e
  · rw [if_pos h, val_ratRnd one_pos]
    congr 1
    rw [Int.cast_mul, cast_ipow2 h]
    unfold Dy.val
    push_cast
    ring
  · rw [if_neg h, val_ratRnd (ipow2_pos (-d.e))]
    congr 1
    rw [cast_ipow2 (by omega : (0:ℤ) ≤ -d.e)]
    unfold Dy.val
    rw [zpow_neg, div_eq_mul_inv, inv_inv]

theorem val_rnd32 (d : Dy) : (rnd32 d).val = rndSpec 24 (-149) d.val :=
  val_dyRnd 24 (-149) d

theorem val_rnd64 (d : Dy) : (rnd64 d).val = rndSpec 53 (-1074) d.val :=
  val_dyRnd 53 (-1074) d

/-- truncation of a rational toward zero, as an integer. -/
def ratTrunc (q : ℚ) : ℤ := if 0 ≤ q then ⌊q⌋ else -⌊-q⌋

theorem tdiv_eq_ratTrunc {A B : ℤ} (hB : 0 < B) :
    Int.tdiv A B = ratTrunc ((A : ℚ) / (B : ℚ)) := by
  have hBq : (0 : ℚ) < (B : ℚ) := by exact_mod_cast hB
  rcases le_or_lt 0 A with hA | hA
  · have hAq : (0 : ℚ) ≤ (A : ℚ) := by exact_mod_cast hA
    rw [ratTrunc, if_pos (div_nonneg hAq hBq.le), floor_intCast_div hB,
      Int.tdiv_eq_ediv hA hB.le]
  · have hAq : (A : ℚ) < 0 := by exact_mod_cast hA
    rcases eq_or_lt_of_le (Int.add_one_le_iff.mpr hA) with hz | hneg
    all_goals {
      rw [ratTrunc]
      by_cases hq : 0 ≤ (A : ℚ) / (B : ℚ)
      · exfalso
        have : (A : ℚ) / (B : ℚ) < 0 := div_neg_of_neg_of_pos hAq hBq
        linarith
      · rw [if_neg hq]
        have h1 : Int.tdiv A B = -Int.tdiv (-A) B := by
          rw [Int.neg_tdiv]
          omega
        rw [h1, Int.tdiv_eq_ediv (by omega) hB.le, ← floor_intCast_div hB]
        congr 2
        push_cast
        ring
    }

theorem val_nonneg_iff (d : Dy) : 0 ≤ d.val ↔ 0 ≤ d.m := by
  unfold Dy.val
  constructor
  · intro h
    by_contra hc
    push_neg at hc
    have h1 : (d.m : ℚ) < 0 := by exact_mod_cast hc
    have h2 : (d.m : ℚ) * 2 ^ d.e < 0 := mul_neg_of_neg_of_pos h1 (two_zpow_pos _)
    linarith
  · intro h
    have h1 : (0 : ℚ) ≤ (d.m : ℚ) := by exact_mod_cast h
    exact mul_nonneg h1 (two_zpow_pos _).le

theorem val_eq_zero_iff (d : Dy) : d.val = 0 ↔ d.m = 0 := by
  unfold Dy.val
  constructor
  · intro h
    rcases mul_eq_zero.mp h with h1 | h1
    · exact_mod_cast h1
    · exact absurd h1 (ne_of_gt (two_zpow_pos _))
  · intro h
    rw [h]
    push_cast
    ring

theorem dyTruncQuot_eq {a b : Dy} (hb : 0 < b.m) :
    dyTruncQuot a b = ratTrunc (a.val / b.val) := by
  unfold dyTruncQuot
  by_cases h : b.e ≤ a.e
  · rw [if_pos h, tdiv_eq_ratTrunc hb]
    congr 1
    rw [Int.cast_mul, cast_ipow2 (by omega : (0:ℤ) ≤ a.e - b.e)]
    rw [val_shift_eq a b.e h]
    unfold Dy.val
    rw [mul_div_mul_right _ _ (ne_of_gt (two_zpow_pos b.e))]
  · rw [if_neg h, tdiv_eq_ratTrunc (mul_pos hb (ipow2_pos _))]
    congr 1
    rw [Int.cast_mul, cast_ipow2 (by omega : (0:ℤ) ≤ b.e - a.e)]
    rw [val_shift_eq b a.e (by omega)]
    unfold Dy.val
    rw [mul_div_mul_right _ _ (ne_of_gt (two_zpow_pos a.e))]

theorem val_dyFmod {a b : Dy} (hb : 0 < b.m) :
    (dyFmod a b).val = a.val - b.val * (ratTrunc (a.val / b.val) : ℚ) := by
  unfold dyFmod
  rw [val_dySub, val_dyMul, dyTruncQuot_eq hb]
  have h1 : (Dy.mk (ratTrunc (a.val / b.val)) 0).val =
      (ratTrunc (a.val / b.val) : ℚ) := by
    rw [val_mk, zpow_zero, mul_one]
  rw [h1]

theorem val_dyDiv {prec : ℕ} {emin : ℤ} {a b : Dy} (hb : b.m ≠ 0) :
    (dyDiv prec emin a b).val = rndSpec prec emin (a.val / b.val) := by
  unfold dyDiv
  rw [if_neg hb]
  simp only
  by_cases h : b.e ≤ a.e
  · have hquot : a.val / b.val =
        ((a.m * ipow2 (a.e - b.e) : ℤ) : ℚ) / ((b.m : ℤ) : ℚ) := by
      rw [Int.cast_mul, cast_ipow2 (by omega : (0:ℤ) ≤ a.e - b.e)]
      rw [val_shift_eq a b.e h]
      unfold Dy.val
      rw [mul_div_mul_right _ _ (ne_of_gt (two_zpow_pos b.e))]
    rw [if_pos h, if_pos h]
    by_cases hbm : 0 < b.m
    · rw [if_pos hbm, val_ratRnd hbm, hquot]
    · have hbm2 : b.m < 0 := by omega
      rw [if_neg hbm, val_ratRnd (by omega : 0 < -b.m), hquot]
      congr 1
      push_cast
      rw [div_neg, neg_div, neg_neg]
  · have hquot : a.val / b.val =
        ((a.m : ℤ) : ℚ) / ((b.m * ipow2 (b.e - a.e) : ℤ) : ℚ) := by
      rw [Int.cast_mul, cast_ipow2 (by omega : (0:ℤ) ≤ b.e - a.e)]
      rw [val_shift_eq b a.e (by omega)]
      unfold Dy.val
      rw [mul_div_mul_right _ _ (ne_of_gt (two_zpow_pos a.e))]
    rw [if_neg h, if_neg h]
    by_cases hbm : 0 < b.m * ipow2 (b.e - a.e)
    · rw [if_pos hbm, val_ratRnd hbm, hquot]
    · have hbm2 : b.m * ipow2 (b.e - a.e) < 0 := by
        rcases lt_trichotomy (b.m * ipow2 (b.e - a.e)) 0 with h1 | h1 | h1
        · exact h1
        · exfalso
          rcases mul_eq_zero.mp h1 with h2 | h2
          · exact hb h2
          · exact absurd h2 (ne_of_gt (ipow2_pos _))
        · exact absurd h1 hbm
      rw [if_neg hbm, val_ratRnd (by omega : 0 < -(b.m * ipow2 (b.e - a.e))), hquot]
      congr 1
      push_cast
      rw [div_neg, neg_div, neg_neg]

/-- representability of a dyadic value from bounds on its components. -/
theorem FRepr_dy {prec : ℕ} {emin : ℤ} (d : Dy)
    (hm : |d.m| < 2 ^ prec) (he : emin ≤ d.e) : FRepr prec emin d.val :=
  ⟨d.m, d.e, rfl, hm, he⟩

/-! ### Climate quantization (steel-registry/build/multi_noise.rs)

Claim C1 concerns the function

  fn quantize(v: f64) -> i64 { ((v as f32) * 10000.0f32) as i64 }

The f64-to-f32 cast rounds to nearest; the f32-to-i64 cast truncates toward
zero and saturates at the i64 range (the dyadic model has no NaN input). -/

/-- saturating cast of a floating value to i64, truncating toward zero. -/
def fToI64 (d : Dy) : ℤ :=
  max (-9223372036854775808) (min 9223372036854775807 (dyTrunc d))

/-- cast of an f64 value to f32 (rounds to nearest). -/
def f64ToF32 (d : Dy) : Dy := rnd32 d

/-- translated from multi_noise.rs: `((v as f32) * 10000.0f32) as i64`. -/
def quantize (v : Dy) : ℤ := fToI64 (f32mul (f64ToF32 v) ⟨10000, 0⟩)

/-- Modelled from the spec: the quantization formula exactly as the spec words
it, an f32 intermediate `v as f32`, an f32 product with 10000 (the rounding of
the exact product), cast to integer. -/
def quantizeSpecF32 (v : Dy) : ℤ := fToI64 (rnd32 (dyMul (rnd32 v) ⟨10000, 0⟩))

/-- Modelled from the spec: the same computation done purely in f64, with no
f32 intermediate. -/
def quantizePureF64 (v : Dy) : ℤ := fToI64 (f64mul v ⟨10000, 0⟩)

/-- C1: for every f64 input v, quantize(v) equals ((v as f32) * 10000.0f32) as
i64 exactly (the rounding of f32(v)*10000 cast to integer), and it is not the
same function as the computation done purely in f64: at
v = 20132659 * 2^(-26) ≈ 0.2999999985 the f32 path yields 3000 while the pure
f64 path yields 2999. -/
theorem c1_quantize_through_f32 :
    (∀ v : Dy, quantize v = quantizeSpecF32 v) ∧
    quantize ⟨20132659, -26⟩ = 3000 ∧
    quantizePureF64 ⟨20132659, -26⟩ = 2999 ∧
    quantize ⟨20132659, -26⟩ ≠ quantizePureF64 ⟨20132659, -26⟩ := by
  refine ⟨fun v => rfl, ?_, ?_, ?_⟩ <;> decide

/-! ### Spline interval search (steel-utils/src/density/spline_eval.rs)

The f32 values are embedded as dyadics; the binary search only compares, so
its behaviour is exactly the rational comparison of the values.  The loop is
written with explicit fuel (the span `hi - lo` shrinks at every step, so any
fuel of at least `locations.len()` is enough; the top level passes the
length). -/

/-- loop of the binary search: narrows `[lo, hi)` until it is empty. -/
def findIntervalLoop (locations : List Dy) (input : Dy) :
    ℕ → ℕ → ℕ → ℕ
  | 0, lo, _ => lo
  | fuel + 1, lo, hi =>
    if lo < hi then
      let mid := (lo + hi) / 2
      if dyLt input (locations.getD mid default) then
        findIntervalLoop locations input fuel lo mid
      else
        findIntervalLoop locations input fuel (mid + 1) hi
    else lo

/-- translated from find_interval in spline_eval.rs: binary search for the
largest index whose location is at most the input; -1 when the input is
before all locations. -/
def find_interval (locations : List Dy) (input : Dy) : ℤ :=
  (findIntervalLoop locations input locations.length 0 locations.length : ℤ) - 1

/-- translated from hermite_interpolate in spline_eval.rs. -/
def hermite_interpolate (x1 x2 y1 y2 d1 d2 input : Dy) : Dy :=
  let t := f32div (f32sub input x1) (f32sub x2 x1)
  let h := f32sub x2 x1
  let a := f32sub (f32mul d1 h) (f32sub y2 y1)
  let b := f32add (f32mul (dyNeg d2) h) (f32sub y2 y1)
  let lerpY := f32add y1 (f32mul t (f32sub y2 y1))
  let lerpAB := f32add a (f32mul t (f32sub b a))
  f32add lerpY (f32mul (f32mul t (f32sub ⟨1, 0⟩ t)) lerpAB)

/-- translated from evaluate_spline in spline_eval.rs. -/
def evaluate_spline (locations derivatives : List Dy) (input : Dy)
    (value_at : ℕ → Dy) : Dy :=
  if locations = [] then ⟨0, 0⟩
  else
    let last := locations.length - 1
    let start := find_interval locations input
    if start < 0 then
      f32add (value_at 0)
        (f32mul (derivatives.getD 0 default)
          (f32sub input (locations.getD 0 default)))
    else
      let s := start.toNat
      if s = last then
        f32add (value_at last)
          (f32mul (derivatives.getD last default)
            (f32sub input (locations.getD last default)))
      else
        hermite_interpolate (locations.getD s default)
          (locations.getD (s + 1) default) (value_at s) (value_at (s + 1))
          (derivatives.getD s default) (derivatives.getD (s + 1) default) input

/-- invariant preservation of the binary-search loop on a sorted list. -/
theorem findIntervalLoop_spec (ls : List Dy) (input : Dy)
    (hsort : ∀ i j, i ≤ j → j < ls.length →
      (ls.getD i default).val ≤ (ls.getD j default).val) :
    ∀ fuel lo hi, hi - lo ≤ fuel → lo ≤ hi → hi ≤ ls.length →
    (∀ i, i < lo → (ls.getD i default).val ≤ input.val) →
    (∀ i, hi ≤ i → i < ls.length → input.val < (ls.getD i default).val) →
    lo ≤ findIntervalLoop ls input fuel lo hi ∧
    findIntervalLoop ls input fuel lo hi ≤ hi ∧
    (∀ i, i < findIntervalLoop ls input fuel lo hi →
      (ls.getD i default).val ≤ input.val) ∧
    (∀ i, findIntervalLoop ls input fuel lo hi ≤ i → i < ls.length →
      input.val < (ls.getD i default).val) := by
  intro fuel
  induction fuel with
  | zero =>
    intro lo hi hfuel hlohi hlen hloInv hhiInv
    have : lo = hi := by omega
    subst this
    exact ⟨le_rfl, le_rfl, hloInv, fun i h1 h2 => hhiInv i h1 h2⟩
  | succ fuel ih =>
    intro lo hi hfuel hlohi hlen hloInv hhiInv
    rw [findIntervalLoop]
    by_cases hlt : lo < hi
    · rw [if_pos hlt]
      set mid := (lo + hi) / 2 with hmid
      have hmid1 : lo ≤ mid := by omega
      have hmid2 : mid < hi := by omega
      by_cases hcmp : dyLt input (ls.getD mid default) = true
      · rw [if_pos hcmp]
        have hc : input.val < (ls.getD mid default).val := (dyLt_iff _ _).mp hcmp
        have hnew : ∀ i, mid ≤ i → i < ls.length →
            input.val < (ls.getD i default).val := by
          intro i h1 h2
          exact lt_of_lt_of_le hc (hsort mid i h1 h2)
        obtain ⟨h1, h2, h3, h4⟩ := ih lo mid (by omega) (by omega) (by omega) hloInv hnew
        exact ⟨h1, by omega, h3, h4⟩
      · rw [if_neg hcmp]
        have hc : (ls.getD mid default).val ≤ input.val := by
          by_contra hlt2
          exact hcmp ((dyLt_iff _ _).mpr (lt_of_not_ge hlt2))
        have hnew : ∀ i, i < mid + 1 → (ls.getD i default).val ≤ input.val := by
          intro i h1
          by_cases hi : i < lo
          · exact hloInv i hi
          · exact le_trans (hsort i mid (by omega) (by omega)) hc
        obtain ⟨h1, h2, h3, h4⟩ := ih (mid + 1) hi (by omega) (by omega) hlen hnew hhiInv
        exact ⟨by omega, h2, h3, h4⟩
    · rw [if_neg hlt]
      have : lo = hi := by omega
      subst this
      exact ⟨le_rfl, le_rfl, hloInv, fun i h1 h2 => hhiInv i h1 h2⟩

/-- C2 counterexample: on the non-empty sorted array [0,1,2] (sortedness
witnessed by dyLe) with input 3, find_interval returns 2 = len-1, which
exceeds the claimed maximum len-2 = 1. -/
theorem c2_counterexample :
    find_interval [Dy.mk 0 0, Dy.mk 1 0, Dy.mk 2 0] ⟨3, 0⟩ = 2 ∧
    ¬ find_interval [Dy.mk 0 0, Dy.mk 1 0, Dy.mk 2 0] ⟨3, 0⟩ ≤
        (([Dy.mk 0 0, Dy.mk 1 0, Dy.mk 2 0] : List Dy).length : ℤ) - 2 ∧
    (∀ j, j < 3 → ∀ i, i ≤ j →
      dyLe (([Dy.mk 0 0, Dy.mk 1 0, Dy.mk 2 0] : List Dy).getD i default)
        (([Dy.mk 0 0, Dy.mk 1 0, Dy.mk 2 0] : List Dy).getD j default) = true) := by
  decide

/-- C2 (amended): for every non-empty, non-decreasingly sorted locations
array, find_interval returns a value in [-1, len-1]; it returns -1 for any
input strictly below the first location; the maximum index it can return is
len-1 (not len-2), attained exactly when the input is at least the last
location; and in that case evaluate_spline takes the after-last extrapolation
branch. -/
theorem c2_find_interval_amended (ls ds : List Dy) (input : Dy)
    (vAt : ℕ → Dy) (hne : ls ≠ [])
    (hsort : ∀ i j, i ≤ j → j < ls.length →
      (ls.getD i default).val ≤ (ls.getD j default).val) :
    (-1 ≤ find_interval ls input ∧
      find_interval ls input ≤ (ls.length : ℤ) - 1) ∧
    (input.val < (ls.getD 0 default).val → find_interval ls input = -1) ∧
    (find_interval ls input = (ls.length : ℤ) - 1 ↔
      (ls.getD (ls.length - 1) default).val ≤ input.val) ∧
    ((ls.getD (ls.length - 1) default).val ≤ input.val →
      evaluate_spline ls ds input vAt =
        f32add (vAt (ls.length - 1))
          (f32mul (ds.getD (ls.length - 1) default)
            (f32sub input (ls.getD (ls.length - 1) default)))) := by
  have hlen : 0 < ls.length := List.length_pos.mpr hne
  obtain ⟨h1, h2, h3, h4⟩ :=
    findIntervalLoop_spec ls input hsort ls.length 0 ls.length (by omega)
      (by omega) le_rfl (fun i hi => absurd hi (Nat.not_lt_zero i))
      (fun i hi1 hi2 => absurd hi1 (by omega))
  set r := findIntervalLoop ls input ls.length 0 ls.length with hr
  have hbounds : -1 ≤ find_interval ls input ∧
      find_interval ls input ≤ (ls.length : ℤ) - 1 := by
    unfold find_interval
    rw [← hr]
    omega
  have hfirst : input.val < (ls.getD 0 default).val →
      find_interval ls input = -1 := by
    intro hin
    have hr0 : r = 0 := by
      by_contra hne0
      exact absurd (h3 0 (by omega)) (not_le.mpr hin)
    unfold find_interval
    rw [← hr, hr0]
    rfl
  have hiff : find_interval ls input = (ls.length : ℤ) - 1 ↔
      (ls.getD (ls.length - 1) default).val ≤ input.val := by
    constructor
    · intro heq
      have hrl : r = ls.length := by
        unfold find_interval at heq
        rw [← hr] at heq
        omega
      exact h3 (ls.length - 1) (by omega)
    · intro hlast
      have hrl : r = ls.length := by
        by_contra hne2
        have hrlt : r < ls.length := lt_of_le_of_ne h2 hne2
        have := h4 r le_rfl hrlt
        have hle : (ls.getD r default).val ≤ (ls.getD (ls.length - 1) default).val :=
          hsort r (ls.length - 1) (by omega) (by omega)
        linarith
      unfold find_interval
      rw [← hr, hrl]
  refine ⟨hbounds, hfirst, hiff, ?_⟩
  intro hlast
  have heq : find_interval ls input = (ls.length : ℤ) - 1 := hiff.mpr hlast
  simp only [evaluate_spline]
  rw [if_neg hne, heq]
  rw [if_neg (by omega : ¬ ((ls.length : ℤ) - 1 < 0))]
  rw [show ((ls.length : ℤ) - 1).toNat = ls.length - 1 by omega]
  rw [if_pos rfl]

/-- witness for c2_find_interval_amended at the concrete sorted array [0, 2]
with input 1. -/
theorem c2_find_interval_amended_witness :
    -1 ≤ find_interval [Dy.mk 0 0, Dy.mk 2 0] ⟨1, 0⟩ ∧
    find_interval [Dy.mk 0 0, Dy.mk 2 0] ⟨1, 0⟩ ≤
      (([Dy.mk 0 0, Dy.mk 2 0] : List Dy).length : ℤ) - 1 :=
  (c2_find_interval_amended [Dy.mk 0 0, Dy.mk 2 0] [] ⟨1, 0⟩ (fun _ => ⟨0, 0⟩)
    (by decide)
    (by
      intro i j hij hj
      have hj2 : j < 2 := by simpa using hj
      interval_cases j <;> interval_cases i <;>
        norm_num [Dy.val, List.getD])).1

/-! ### Simplex noise (steel-utils/src/noise/simplex_noise.rs)

The permutation table is embedded as a function `p : ℕ → ℤ` (only indices
0..511 are ever read); the three offsets are plain f64 values.  `x & 0xFF` on
an i32 equals `x % 256` (Euclidean remainder), and `% 12` on the nonnegative
table entries is `Int.tmod`. -/

/-- gradient table from steel-utils/src/noise/mod.rs (16 entries; out-of-range
indices, never used by the code, default to the zero vector). -/
def GRADIENT : ℕ → ℤ × ℤ × ℤ
  | 0 => (1, 1, 0)
  | 1 => (-1, 1, 0)
  | 2 => (1, -1, 0)
  | 3 => (-1, -1, 0)
  | 4 => (1, 0, 1)
  | 5 => (-1, 0, 1)
  | 6 => (1, 0, -1)
  | 7 => (-1, 0, -1)
  | 8 => (0, 1, 1)
  | 9 => (0, -1, 1)
  | 10 => (0, 1, -1)
  | 11 => (0, -1, -1)
  | 12 => (1, 1, 0)
  | 13 => (0, -1, 1)
  | 14 => (-1, 1, 0)
  | 15 => (0, -1, -1)
  | _ => (0, 0, 0)

/-- simplex noise state: permutation table and coordinate offsets. -/
structure SimplexNoise where
  p : ℕ → ℤ
  xo : Dy
  yo : Dy
  zo : Dy

/-- translated from `fn p(&self, x: i32) -> i32 { self.p[(x & 0xFF) as usize] }`. -/
def pLookup (n : SimplexNoise) (x : ℤ) : ℤ := n.p (x % 256).toNat

/-- `(v % 12) as usize` on a table entry (entries are nonnegative in runs). -/
def gradIdx (v : ℤ) : ℕ := (Int.tmod v 12).toNat

/-- the f64 literal 1.7320508075688772 (SQRT_3). -/
def SQRT_3 : Dy := ratRnd 53 (-1074) 17320508075688772 10000000000000000

/-- `0.5 * (SQRT_3 - 1.0)`, evaluated in f64 like the Rust constant. -/
def F2 : Dy := f64mul ⟨1, -1⟩ (f64sub SQRT_3 ⟨1, 0⟩)

/-- `(3.0 - SQRT_3) / 6.0`, evaluated in f64 like the Rust constant. -/
def G2 : Dy := f64div (f64sub ⟨3, 0⟩ SQRT_3) ⟨6, 0⟩

/-- Modelled from the spec: `math::floor` (whose source file is not in the
snapshot) returns the largest integer not exceeding its f64 argument. -/
def mthFloor (d : Dy) : ℤ := dyFloor d

/-- translated from SimplexNoise::dot: `g[0]*x + g[1]*y + g[2]*z` in f64. -/
def dot (g : ℤ × ℤ × ℤ) (x y z : Dy) : Dy :=
  f64add (f64add (f64mul ⟨g.1, 0⟩ x) (f64mul ⟨g.2.1, 0⟩ y)) (f64mul ⟨g.2.2, 0⟩ z)

/-- translated from SimplexNoise::corner_noise_3d. -/
def corner_noise_3d (index : ℕ) (x y z base : Dy) : Dy :=
  let t0 := f64sub (f64sub (f64sub base (f64mul x x)) (f64mul y y)) (f64mul z z)
  if dyLt t0 ⟨0, 0⟩ then ⟨0, 0⟩
  else
    let t1 := f64mul t0 t0
    f64mul (f64mul t1 t1) (dot (GRADIENT index) x y z)

/-- translated from SimplexNoise::get_value_2d. -/
def get_value_2d (n : SimplexNoise) (xin yin : Dy) : Dy :=
  let s := f64mul (f64add xin yin) F2
  let i := mthFloor (f64add xin s)
  let j := mthFloor (f64add yin s)
  let t := f64mul (i64ToF64 (i + j)) G2
  let x0 := f64sub xin (f64sub (i64ToF64 i) t)
  let y0 := f64sub yin (f64sub (i64ToF64 j) t)
  let p1 : ℤ × ℤ := if dyLt y0 x0 then (1, 0) else (0, 1)
  let x1 := f64add (f64sub x0 (i64ToF64 p1.1)) G2
  let y1 := f64add (f64sub y0 (i64ToF64 p1.2)) G2
  let x2 := f64add (f64sub x0 ⟨1, 0⟩) (f64mul ⟨2, 0⟩ G2)
  let y2 := f64add (f64sub y0 ⟨1, 0⟩) (f64mul ⟨2, 0⟩ G2)
  let ii := i % 256
  let jj := j % 256
  let gi0 := gradIdx (pLookup n (ii + pLookup n jj))
  let gi1 := gradIdx (pLookup n (ii + p1.1 + pLookup n (jj + p1.2)))
  let gi2 := gradIdx (pLookup n (ii + 1 + pLookup n (jj + 1)))
  let n0 := corner_noise_3d gi0 x0 y0 ⟨0, 0⟩ ⟨1, -1⟩
  let n1 := corner_noise_3d gi1 x1 y1 ⟨0, 0⟩ ⟨1, -1⟩
  let n2 := corner_noise_3d gi2 x2 y2 ⟨0, 0⟩ ⟨1, -1⟩
  f64mul ⟨70, 0⟩ (f64add (f64add n0 n1) n2)

/-! ### End islands (steel-core/src/worldgen/end_islands.rs)

f32 computations that can produce NaN are embedded in `Option Dy`, with `none`
standing for NaN: the squared-distance i32 wrap can make `dist_sq` negative,
whose square root is NaN.  Rust's `f32::max` ignores NaN; `clamp`, `-`, `*`
and `sqrt(negative)` propagate it; every `NaN cmp c` is false. -/

/-- f32 multiplication lifted to NaN (`none`). -/
def fmul32 (x y : Option Dy) : Option Dy :=
  match x, y with
  | some a, some b => some (f32mul a b)
  | _, _ => none

/-- f32 subtraction lifted to NaN (`none`). -/
def fsub32 (x y : Option Dy) : Option Dy :=
  match x, y with
  | some a, some b => some (f32sub a b)
  | _, _ => none

/-- Rust `f32::max`: ignores a NaN operand; on two numbers returns the larger,
the first on ties. -/
def fmax32 (x y : Option Dy) : Option Dy :=
  match x, y with
  | none, b => b
  | a, none => a
  | some a, some b => some (if dyLt a b then b else a)

/-- Rust `f32::clamp(lo, hi)`: `if self < lo { lo } else if self > hi { hi }
else { self }`; NaN propagates. -/
def fclamp (x : Option Dy) (lo hi : Dy) : Option Dy :=
  x.map fun d => if dyLt d lo then lo else if dyLt hi d then hi else d

/-- f32 square root: NaN on NaN or negative input, else correctly rounded. -/
def fsqrt32 (x : Option Dy) : Option Dy :=
  match x with
  | none => none
  | some d => if d.m < 0 then none else some (dySqrt32 d)

/-- translated from end_islands.rs: `-0.9_f32 as f64` (the f32 nearest -0.9,
promoted exactly). -/
def ISLAND_THRESHOLD : Dy := ratRnd 24 (-149) (-9) 10

/-- the contribution guard of the neighbor loop: `tx*tx + tz*tz > 4096` in i64
and simplex noise strictly below ISLAND_THRESHOLD (f64 comparison). -/
def contributes (noise : SimplexNoise) (cx cz : ℤ) : Bool :=
  decide (4096 < cx * cx + cz * cz) &&
    dyLt (get_value_2d noise (i64ToF64 cx) (i64ToF64 cz)) ISLAND_THRESHOLD

/-- translated from end_islands.rs:
`((cx as f32).abs() * 3439.0 + (cz as f32).abs() * 147.0) % 13.0 + 9.0`
(all in f32; `%` is the exact IEEE remainder with the dividend's sign). -/
def island_size (cx cz : ℤ) : Dy :=
  f32add
    (dyFmod
      (f32add (f32mul (dyAbs (i64ToF32 cx)) ⟨3439, 0⟩)
        (f32mul (dyAbs (i64ToF32 cz)) ⟨147, 0⟩))
      ⟨13, 0⟩)
    ⟨9, 0⟩

/-- the candidate offset of one contributing neighbor:
`(100.0 - (xd*xd + zd*zd).sqrt() * island_size).clamp(-100.0, 80.0)`. -/
def islandCandidate (subX subZ xo zo : ℤ) (size : Dy) : Option Dy :=
  let xd := f32sub (i64ToF32 subX) (i64ToF32 (xo * 2))
  let zd := f32sub (i64ToF32 subZ) (i64ToF32 (zo * 2))
  let s := fsqrt32 (some (f32add (f32mul xd xd) (f32mul zd zd)))
  fclamp (fsub32 (some ⟨100, 0⟩) (fmul32 s (some size))) ⟨-100, 0⟩ ⟨80, 0⟩

/-- one iteration of the 25x25 neighbor loop. -/
def islandStep (noise : SimplexNoise) (chunkX chunkZ subX subZ : ℤ)
    (doffs : Option Dy) (off : ℤ × ℤ) : Option Dy :=
  let tx := chunkX + off.1
  let tz := chunkZ + off.2
  if contributes noise tx tz then
    fmax32 doffs (islandCandidate subX subZ off.1 off.2 (island_size tx tz))
  else doffs

/-- the offsets `(-12..=12) x (-12..=12)` in loop order (outer xo, inner zo). -/
def neighborOffsets : List (ℤ × ℤ) :=
  (List.range 25).flatMap fun a =>
    (List.range 25).map fun b => ((a : ℤ) - 12, (b : ℤ) - 12)

/-- translated from EndIslands::get_height_value.  `/` and `%` on i32 are
Rust's truncating division and remainder; the squared distance wraps in i32. -/
def get_height_value (noise : SimplexNoise) (sectionX sectionZ : ℤ) : Option Dy :=
  let chunkX := Int.tdiv sectionX 2
  let chunkZ := Int.tdiv sectionZ 2
  let subX := Int.tmod sectionX 2
  let subZ := Int.tmod sectionZ 2
  let distSq := wrap32 (wrap32 (sectionX * sectionX) + wrap32 (sectionZ * sectionZ))
  let dist := fsqrt32 (some (rnd32 ⟨distSq, 0⟩))
  let doffs0 := fclamp (fsub32 (some ⟨100, 0⟩) (fmul32 dist (some ⟨8, 0⟩)))
    ⟨-100, 0⟩ ⟨80, 0⟩
  neighborOffsets.foldl (islandStep noise chunkX chunkZ subX subZ) doffs0

/-- translated from EndIslands::sample: widen the f32 height to f64, subtract
8.0, divide by 128.0; the vertical argument is ignored. -/
def endIslandsSample (noise : SimplexNoise) (blockX _blockY blockZ : ℤ) :
    Option Dy :=
  (get_height_value noise (Int.tdiv blockX 8) (Int.tdiv blockZ 8)).map
    fun h => f64div (f64sub h ⟨8, 0⟩) ⟨128, 0⟩

/-! ### End biome sampler (steel-core/src/worldgen/biome_source.rs) -/

/-- the five biomes the End sampler can return. -/
inductive EndBiome where
  | theEnd
  | endHighlands
  | endMidlands
  | smallEndIslands
  | endBarrens
deriving DecidableEq, Repr

/-- `erosion > c` on an optional (NaN-able) f64: false on NaN. -/
def fGt (x : Option Dy) (c : Dy) : Bool :=
  match x with
  | none => false
  | some d => dyLt c d

/-- `erosion >= c` on an optional f64: false on NaN. -/
def fGe (x : Option Dy) (c : Dy) : Bool :=
  match x with
  | none => false
  | some d => dyLe c d

/-- `erosion < c` on an optional f64: false on NaN. -/
def fLt (x : Option Dy) (c : Dy) : Bool :=
  match x with
  | none => false
  | some d => dyLt d c

/-- translated from EndChunkBiomeSampler::sample.  `<< 2` wraps in i32,
`>> 4` is the arithmetic shift (floor division by 16), the central-island
test is exact i64 arithmetic, and the thresholds 0.25, -0.0625, -0.21875 are
the dyadics 1/4, -1/16, -7/32. -/
def endChunkSample (noise : SimplexNoise) (quartX quartY quartZ : ℤ) : EndBiome :=
  let blockX := wrap32 (quartX * 4)
  let blockY := wrap32 (quartY * 4)
  let blockZ := wrap32 (quartZ * 4)
  let chunkX := Int.fdiv blockX 16
  let chunkZ := Int.fdiv blockZ 16
  if chunkX * chunkX + chunkZ * chunkZ ≤ 4096 then EndBiome.theEnd
  else
    let weirdBlockX := wrap32 ((chunkX * 2 + 1) * 8)
    let weirdBlockZ := wrap32 ((chunkZ * 2 + 1) * 8)
    let erosion := endIslandsSample noise weirdBlockX blockY weirdBlockZ
    if fGt erosion ⟨1, -2⟩ then EndBiome.endHighlands
    else if fGe erosion ⟨-1, -4⟩ then EndBiome.endMidlands
    else if fLt erosion ⟨-7, -5⟩ then EndBiome.smallEndIslands
    else EndBiome.endBarrens

/-- value of the threshold 0.25. -/
theorem val_quarter : (Dy.mk 1 (-2)).val = 1 / 4 := by
  rw [val_mk]
  norm_num [zpow_neg]

/-- value of the threshold -0.0625. -/
theorem val_neg_sixteenth : (Dy.mk (-1) (-4)).val = -(1 / 16) := by
  rw [val_mk]
  norm_num [zpow_neg]

/-- value of the threshold -0.21875. -/
theorem val_neg_seven_thirtyseconds : (Dy.mk (-7) (-5)).val = -(7 / 32) := by
  rw [val_mk]
  norm_num [zpow_neg]

/-- C3: for every permutation state and every quart coordinate, the End chunk
sampler returns the-end exactly when the containing chunk satisfies
chunk_x^2 + chunk_z^2 <= 4096; otherwise it samples the End-islands erosion at
((chunk*2+1)*8, block_y, (chunk*2+1)*8) and classifies, in order:
erosion > 0.25 -> highlands, erosion >= -0.0625 -> midlands,
erosion < -0.21875 -> small islands, else barrens (a NaN erosion, compared
false everywhere, falls to barrens). -/
theorem c3_end_chunk_sampler (noise : SimplexNoise) (qx qy qz : ℤ) :
    endChunkSample noise qx qy qz =
      (if Int.fdiv (wrap32 (qx * 4)) 16 * Int.fdiv (wrap32 (qx * 4)) 16 +
          Int.fdiv (wrap32 (qz * 4)) 16 * Int.fdiv (wrap32 (qz * 4)) 16 ≤ 4096 then
        EndBiome.theEnd
      else
        match endIslandsSample noise
            (wrap32 ((Int.fdiv (wrap32 (qx * 4)) 16 * 2 + 1) * 8))
            (wrap32 (qy * 4))
            (wrap32 ((Int.fdiv (wrap32 (qz * 4)) 16 * 2 + 1) * 8)) with
        | none => EndBiome.endBarrens
        | some d =>
          if 1 / 4 < d.val then EndBiome.endHighlands
          else if -(1 / 16) ≤ d.val then EndBiome.endMidlands
          else if d.val < -(7 / 32) then EndBiome.smallEndIslands
          else EndBiome.endBarrens) ∧
    (endChunkSample noise qx qy qz = EndBiome.theEnd ↔
      Int.fdiv (wrap32 (qx * 4)) 16 * Int.fdiv (wrap32 (qx * 4)) 16 +
        Int.fdiv (wrap32 (qz * 4)) 16 * Int.fdiv (wrap32 (qz * 4)) 16 ≤ 4096) := by
  have hmain : endChunkSample noise qx qy qz =
      (if Int.fdiv (wrap32 (qx * 4)) 16 * Int.fdiv (wrap32 (qx * 4)) 16 +
          Int.fdiv (wrap32 (qz * 4)) 16 * Int.fdiv (wrap32 (qz * 4)) 16 ≤ 4096 then
        EndBiome.theEnd
      else
        match endIslandsSample noise
            (wrap32 ((Int.fdiv (wrap32 (qx * 4)) 16 * 2 + 1) * 8))
            (wrap32 (qy * 4))
            (wrap32 ((Int.fdiv (wrap32 (qz * 4)) 16 * 2 + 1) * 8)) with
        | none => EndBiome.endBarrens
        | some d =>
          if 1 / 4 < d.val then EndBiome.endHighlands
          else if -(1 / 16) ≤ d.val then EndBiome.endMidlands
          else if d.val < -(7 / 32) then EndBiome.smallEndIslands
          else EndBiome.endBarrens) := by
    simp only [endChunkSample]
    by_cases hc : Int.fdiv (wrap32 (qx * 4)) 16 * Int.fdiv (wrap32 (qx * 4)) 16 +
        Int.fdiv (wrap32 (qz * 4)) 16 * Int.fdiv (wrap32 (qz * 4)) 16 ≤ 4096
    · rw [if_pos hc, if_pos hc]
    · rw [if_neg hc, if_neg hc]
      cases ho : endIslandsSample noise
          (wrap32 ((Int.fdiv (wrap32 (qx * 4)) 16 * 2 + 1) * 8))
          (wrap32 (qy * 4))
          (wrap32 ((Int.fdiv (wrap32 (qz * 4)) 16 * 2 + 1) * 8)) with
      | none => rfl
      | some d =>
        simp only [fGt, fGe, fLt]
        by_cases h1 : 1 / 4 < d.val
        · have hb1 : dyLt ⟨1, -2⟩ d = true :=
            (dyLt_iff _ _).mpr (by rw [val_quarter]; exact h1)
          rw [if_pos hb1, if_pos h1]
        · have hb1 : ¬ dyLt ⟨1, -2⟩ d = true := by
            intro hb
            exact h1 (by rw [← val_quarter]; exact (dyLt_iff _ _).mp hb)
          rw [if_neg hb1, if_neg h1]
          by_cases h2 : -(1 / 16) ≤ d.val
          · have hb2 : dyLe ⟨-1, -4⟩ d = true :=
              (dyLe_iff _ _).mpr (by rw [val_neg_sixteenth]; exact h2)
            rw [if_pos hb2, if_pos h2]
          · have hb2 : ¬ dyLe ⟨-1, -4⟩ d = true := by
              intro hb
              exact h2 (by rw [← val_neg_sixteenth]; exact (dyLe_iff _ _).mp hb)
            rw [if_neg hb2, if_neg h2]
            by_cases h3 : d.val < -(7 / 32)
            · have hb3 : dyLt d ⟨-7, -5⟩ = true :=
                (dyLt_iff _ _).mpr (by rw [val_neg_seven_thirtyseconds]; exact h3)
              rw [if_pos hb3, if_pos h3]
            · have hb3 : ¬ dyLt d ⟨-7, -5⟩ = true := by
                intro hb
                exact h3 (by rw [← val_neg_seven_thirtyseconds]; exact (dyLt_iff _ _).mp hb)
              rw [if_neg hb3, if_neg h3]
  refine ⟨hmain, ?_⟩
  rw [hmain]
  by_cases hc : Int.fdiv (wrap32 (qx * 4)) 16 * Int.fdiv (wrap32 (qx * 4)) 16 +
      Int.fdiv (wrap32 (qz * 4)) 16 * Int.fdiv (wrap32 (qz * 4)) 16 ≤ 4096
  · rw [if_pos hc]
    simp [hc]
  · rw [if_neg hc]
    constructor
    · intro hEq
      exfalso
      revert hEq
      cases ho : endIslandsSample noise
          (wrap32 ((Int.fdiv (wrap32 (qx * 4)) 16 * 2 + 1) * 8))
          (wrap32 (qy * 4))
          (wrap32 ((Int.fdiv (wrap32 (qz * 4)) 16 * 2 + 1) * 8)) with
      | none => intro hEq; exact EndBiome.noConfusion hEq
      | some d =>
        intro hEq
        have hEq2 : (if 1 / 4 < d.val then EndBiome.endHighlands
            else if -(1 / 16) ≤ d.val then EndBiome.endMidlands
            else if d.val < -(7 / 32) then EndBiome.smallEndIslands
            else EndBiome.endBarrens) = EndBiome.theEnd := hEq
        by_cases h1 : 1 / 4 < d.val
        · rw [if_pos h1] at hEq2; exact EndBiome.noConfusion hEq2
        · rw [if_neg h1] at hEq2
          by_cases h2 : -(1 / 16) ≤ d.val
          · rw [if_pos h2] at hEq2; exact EndBiome.noConfusion hEq2
          · rw [if_neg h2] at hEq2
            by_cases h3 : d.val < -(7 / 32)
            · rw [if_pos h3] at hEq2; exact EndBiome.noConfusion hEq2
            · rw [if_neg h3] at hEq2; exact EndBiome.noConfusion hEq2
    · intro hc2
      exact absurd hc2 hc

/-- C10: the End biome never depends on the vertical coordinate: for every
permutation state, quart (x, z) and any two quart y values, the sampler
returns the same biome, because endIslandsSample ignores its vertical
argument entirely. -/
theorem c10_vertical_independence (noise : SimplexNoise) (qx qz y1 y2 : ℤ) :
    endChunkSample noise qx y1 qz = endChunkSample noise qx y2 qz := by
  simp only [endChunkSample, endIslandsSample]

/-- value of an integer dyadic. -/
theorem val_int (n : ℤ) : (Dy.mk n 0).val = (n : ℚ) := by
  rw [val_mk, zpow_zero, mul_one]

/-- every nonnegative integer below 2^24 is binary32-representable. -/
theorem FRepr32_of_small {n : ℤ} (h0 : 0 ≤ n) (h : n < 16777216) :
    FRepr 24 (-149) (n : ℚ) :=
  FRepr_intCast n
    (by rw [abs_of_nonneg h0, show ((2:ℤ) ^ 24 : ℤ) = 16777216 from by norm_num]
        exact h)
    (by norm_num)

/-- every nonnegative integer below 2^53 is binary64-representable. -/
theorem FRepr64_of_small {n : ℤ} (h0 : 0 ≤ n) (h : n < 9007199254740992) :
    FRepr 53 (-1074) (n : ℚ) :=
  FRepr_intCast n
    (by rw [abs_of_nonneg h0,
          show ((2:ℤ) ^ 53 : ℤ) = 9007199254740992 from by norm_num]
        exact h)
    (by norm_num)

/-- binary32 rounding is exact on integers of magnitude below 2^24. -/
theorem rnd32_int_exact {n : ℤ} (hn : |n| < 16777216) :
    (rnd32 ⟨n, 0⟩).val = (n : ℚ) := by
  rw [val_rnd32, val_int]
  exact rndSpec_fix
    (FRepr_intCast n
      (by rw [show ((2:ℤ) ^ 24 : ℤ) = 16777216 from by norm_num]; exact hn)
      (by norm_num))

/-- C5: a neighbor chunk (cx, cz) contributes an island candidate iff
cx^2 + cz^2 > 4096 in exact (i64) arithmetic and its 2D simplex value is
strictly below -15099494/16777216 = -0.8999999761581421875, the f64 promotion
of the f32 literal -0.9f32 — which is not the exact double -0.9. -/
theorem c5_island_threshold :
    (∀ noise cx cz, contributes noise cx cz = true ↔
      (4096 < cx * cx + cz * cz ∧
        (get_value_2d noise (i64ToF64 cx) (i64ToF64 cz)).val <
          -15099494 / 16777216)) ∧
    ISLAND_THRESHOLD = ⟨-15099494, -24⟩ ∧
    ISLAND_THRESHOLD.val = -15099494 / 16777216 ∧
    ISLAND_THRESHOLD.val ≠ -(9 / 10) := by
  have hrep : ISLAND_THRESHOLD = ⟨-15099494, -24⟩ := by decide
  have hval : ISLAND_THRESHOLD.val = -15099494 / 16777216 := by
    rw [hrep, val_mk]
    norm_num [zpow_neg]
  refine ⟨?_, hrep, hval, ?_⟩
  · intro noise cx cz
    unfold contributes
    rw [Bool.and_eq_true, decide_eq_true_eq, dyLt_iff, hval]
  · rw [hval]
    norm_num

/-- C6 counterexample: at the neighbor chunk (4879, 0) the f32 island-size
computation in end_islands.rs yields 10 (the f32 product 4879*3439 rounds
16778881 down to 16778880, whose remainder mod 13 is 1), while the
exact-integer formula of the spec yields (4879*3439) % 13 + 9 = 11. -/
theorem c6_counterexample :
    dyEq (island_size 4879 0) ⟨10, 0⟩ = true ∧
    ((|(4879 : ℤ)| * 3439 + |(0 : ℤ)| * 147) % 13 + 9 : ℤ) = 11 := by
  constructor
  · decide
  · decide

/-- C6 (amended): whenever the exact weighted sum |cx|*3439 + |cz|*147 stays
below 2^24 (so every f32 step is exact), the island size equals the integer
formula ((|cx|*3439 + |cz|*147) % 13) + 9; beyond that bound the f32
computation can differ, as c6_counterexample shows at (4879, 0). -/
theorem c6_island_size_amended (cx cz : ℤ)
    (hbound : |cx| * 3439 + |cz| * 147 < 16777216) :
    (island_size cx cz).val =
      (((|cx| * 3439 + |cz| * 147) % 13 + 9 : ℤ) : ℚ) := by
  have hax : (0 : ℤ) ≤ |cx| := abs_nonneg cx
  have haz : (0 : ℤ) ≤ |cz| := abs_nonneg cz
  have hxval : (i64ToF32 cx).val = (cx : ℚ) := rnd32_int_exact (by omega)
  have hzval : (i64ToF32 cz).val = (cz : ℚ) := rnd32_int_exact (by omega)
  have h1 : (f32mul (dyAbs (i64ToF32 cx)) ⟨3439, 0⟩).val =
      ((|cx| * 3439 : ℤ) : ℚ) := by
    simp only [f32mul]
    rw [val_rnd32, val_dyMul, val_dyAbs, hxval, val_int]
    rw [show |(cx : ℚ)| * ((3439 : ℤ) : ℚ) = ((|cx| * 3439 : ℤ) : ℚ) from by
      push_cast; ring]
    exact rndSpec_fix (FRepr32_of_small (by positivity) (by omega))
  have h2 : (f32mul (dyAbs (i64ToF32 cz)) ⟨147, 0⟩).val =
      ((|cz| * 147 : ℤ) : ℚ) := by
    simp only [f32mul]
    rw [val_rnd32, val_dyMul, val_dyAbs, hzval, val_int]
    rw [show |(cz : ℚ)| * ((147 : ℤ) : ℚ) = ((|cz| * 147 : ℤ) : ℚ) from by
      push_cast; ring]
    exact rndSpec_fix (FRepr32_of_small (by positivity) (by omega))
  have h3 : (f32add (f32mul (dyAbs (i64ToF32 cx)) ⟨3439, 0⟩)
      (f32mul (dyAbs (i64ToF32 cz)) ⟨147, 0⟩)).val =
      ((|cx| * 3439 + |cz| * 147 : ℤ) : ℚ) := by
    simp only [f32add]
    rw [val_rnd32, val_dyAdd, h1, h2, ← Int.cast_add]
    exact rndSpec_fix (FRepr32_of_small (by positivity) (by omega))
  have h4 : (dyFmod (f32add (f32mul (dyAbs (i64ToF32 cx)) ⟨3439, 0⟩)
      (f32mul (dyAbs (i64ToF32 cz)) ⟨147, 0⟩)) ⟨13, 0⟩).val =
      (((|cx| * 3439 + |cz| * 147) % 13 : ℤ) : ℚ) := by
    rw [val_dyFmod (show (0 : ℤ) < (Dy.mk 13 0).m from by norm_num)]
    rw [h3, val_int]
    have htr : ratTrunc (((|cx| * 3439 + |cz| * 147 : ℤ) : ℚ) / ((13 : ℤ) : ℚ)) =
        (|cx| * 3439 + |cz| * 147) / 13 := by
      unfold ratTrunc
      rw [if_pos (by positivity)]
      exact floor_intCast_div (by norm_num)
    rw [htr]
    rw [show ((|cx| * 3439 + |cz| * 147) % 13 : ℤ) =
      (|cx| * 3439 + |cz| * 147) - 13 * ((|cx| * 3439 + |cz| * 147) / 13) from by
      omega]
    push_cast
    ring
  have hm0 : (0 : ℤ) ≤ (|cx| * 3439 + |cz| * 147) % 13 := Int.emod_nonneg _ (by norm_num)
  have hm1 : (|cx| * 3439 + |cz| * 147) % 13 < 13 :=
    Int.emod_lt_of_pos _ (by norm_num)
  rw [show island_size cx cz =
    rnd32 (dyAdd (dyFmod (f32add (f32mul (dyAbs (i64ToF32 cx)) ⟨3439, 0⟩)
      (f32mul (dyAbs (i64ToF32 cz)) ⟨147, 0⟩)) ⟨13, 0⟩) ⟨9, 0⟩) from rfl]
  rw [val_rnd32, val_dyAdd, h4, val_int, ← Int.cast_add]
  exact rndSpec_fix (FRepr32_of_small (by omega) (by omega))

/-- witness for c6_island_size_amended at the small chunk (5, -3). -/
theorem c6_island_size_amended_witness :
    (island_size 5 (-3)).val =
      (((|(5 : ℤ)| * 3439 + |(-3 : ℤ)| * 147) % 13 + 9 : ℤ) : ℚ) :=
  c6_island_size_amended 5 (-3) (by decide)

/-- tmod negates with its first argument. -/
theorem tmod_neg_left (a b : ℤ) : Int.tmod (-a) b = -Int.tmod a b := by
  have h1 := Int.tdiv_add_tmod a b
  have h2 := Int.tdiv_add_tmod (-a) b
  rw [Int.neg_tdiv] at h2
  linarith

/-- the truncated remainder is at most b-1 in magnitude. -/
theorem abs_tmod_le (a : ℤ) {b : ℤ} (hb : 0 < b) : |Int.tmod a b| ≤ b - 1 := by
  rcases le_or_lt 0 a with h | h
  · rw [abs_of_nonneg (Int.tmod_nonneg b h)]
    have := Int.tmod_lt_of_pos a hb
    omega
  · have h2 : Int.tmod a b = -Int.tmod (-a) b := by rw [tmod_neg_left]; ring
    have h3 : 0 ≤ Int.tmod (-a) b := Int.tmod_nonneg b (by omega)
    have h4 := Int.tmod_lt_of_pos (-a) hb
    rw [h2, abs_neg, abs_of_nonneg h3]
    omega

/-- block coordinates up to 262136 in magnitude give section coordinates up to
32767 in magnitude. -/
theorem tdiv8_abs_le {a : ℤ} (h : |a| ≤ 262136) : |Int.tdiv a 8| ≤ 32767 := by
  have h1 := Int.tdiv_add_tmod a 8
  have h2 := abs_tmod_le a (show (0:ℤ) < 8 by norm_num)
  have h3 := abs_le.mp h
  have h4 := abs_le.mp h2
  rw [abs_le]
  omega

/-- wrap32 is the identity inside the i32 range. -/
theorem wrap32_eq_self {n : ℤ} (h1 : -2147483648 ≤ n) (h2 : n ≤ 2147483647) :
    wrap32 n = n := by
  unfold wrap32
  omega

/-- an f32 square is nonnegative. -/
theorem f32mul_self_nonneg (x : Dy) : 0 ≤ (f32mul x x).val := by
  rw [show f32mul x x = rnd32 (dyMul x x) from rfl, val_rnd32]
  exact rndSpec_nonneg (by rw [val_dyMul]; exact mul_self_nonneg _)

/-- f32 addition of nonnegatives is nonnegative. -/
theorem f32add_nonneg {x y : Dy} (hx : 0 ≤ x.val) (hy : 0 ≤ y.val) :
    0 ≤ (f32add x y).val := by
  rw [show f32add x y = rnd32 (dyAdd x y) from rfl, val_rnd32]
  exact rndSpec_nonneg (by rw [val_dyAdd]; linarith)

/-- the f32 square root of a nonnegative number is a number (not NaN). -/
theorem fsqrt32_some_of_nonneg {d : Dy} (h : 0 ≤ d.val) :
    ∃ r, fsqrt32 (some d) = some r := by
  have hkey : fsqrt32 (some d) = if d.m < 0 then none else some (dySqrt32 d) := rfl
  rw [hkey, if_neg (not_lt.mpr ((val_nonneg_iff d).mp h))]
  exact ⟨_, rfl⟩

/-- clamping a number to [-100, 80] yields a number in [-100, 80]. -/
theorem fclamp_pm100_80 {x : Option Dy} {d : Dy} (hx : x = some d) :
    ∃ r, fclamp x ⟨-100, 0⟩ ⟨80, 0⟩ = some r ∧
      (-100 : ℚ) ≤ r.val ∧ r.val ≤ 80 := by
  subst hx
  have hlo : (Dy.mk (-100) 0).val = (-100 : ℚ) := by rw [val_int]; norm_num
  have hhi : (Dy.mk 80 0).val = (80 : ℚ) := by rw [val_int]; norm_num
  refine ⟨if dyLt d ⟨-100, 0⟩ then ⟨-100, 0⟩ else if dyLt ⟨80, 0⟩ d then ⟨80, 0⟩
    else d, rfl, ?_⟩
  split_ifs with h1 h2
  · rw [hlo]
    norm_num
  · rw [hhi]
    norm_num
  · constructor
    · by_contra hc
      apply h1
      rw [dyLt_iff, hlo]
      exact lt_of_not_ge hc
    · by_contra hc
      apply h2
      rw [dyLt_iff, hhi]
      exact lt_of_not_ge hc

/-- the max of two numbers in [-100, 80] is a number in [-100, 80]. -/
theorem fmax32_range {x y : Option Dy} {a b : Dy}
    (hx : x = some a) (hy : y = some b)
    (ha1 : (-100 : ℚ) ≤ a.val) (ha2 : a.val ≤ 80)
    (hb1 : (-100 : ℚ) ≤ b.val) (hb2 : b.val ≤ 80) :
    ∃ r, fmax32 x y = some r ∧ (-100 : ℚ) ≤ r.val ∧ r.val ≤ 80 := by
  subst hx
  subst hy
  refine ⟨if dyLt a b then b else a, rfl, ?_⟩
  split_ifs
  · exact ⟨hb1, hb2⟩
  · exact ⟨ha1, ha2⟩

/-- every island candidate is a number in [-100, 80] (the clamp guarantees
it; the square-root argument, a sum of squares, is never negative). -/
theorem islandCandidate_range (subX subZ xo zo : ℤ) (size : Dy) :
    ∃ r, islandCandidate subX subZ xo zo size = some r ∧
      (-100 : ℚ) ≤ r.val ∧ r.val ≤ 80 := by
  obtain ⟨sr, hsr⟩ := fsqrt32_some_of_nonneg
    (f32add_nonneg
      (f32mul_self_nonneg (f32sub (i64ToF32 subX) (i64ToF32 (xo * 2))))
      (f32mul_self_nonneg (f32sub (i64ToF32 subZ) (i64ToF32 (zo * 2)))))
  have hkey : islandCandidate subX subZ xo zo size =
      fclamp (fsub32 (some ⟨100, 0⟩) (fmul32 (fsqrt32 (some (f32add
        (f32mul (f32sub (i64ToF32 subX) (i64ToF32 (xo * 2)))
          (f32sub (i64ToF32 subX) (i64ToF32 (xo * 2))))
        (f32mul (f32sub (i64ToF32 subZ) (i64ToF32 (zo * 2)))
          (f32sub (i64ToF32 subZ) (i64ToF32 (zo * 2))))))) (some size)))
        ⟨-100, 0⟩ ⟨80, 0⟩ := rfl
  rw [hkey, hsr]
  exact fclamp_pm100_80 rfl

/-- each neighbor-loop step preserves number-in-range. -/
theorem islandStep_preserves (noise : SimplexNoise) (cX cZ sX sZ : ℤ)
    (acc : Option Dy) (off : ℤ × ℤ)
    (hacc : ∃ r, acc = some r ∧ (-100 : ℚ) ≤ r.val ∧ r.val ≤ 80) :
    ∃ r, islandStep noise cX cZ sX sZ acc off = some r ∧
      (-100 : ℚ) ≤ r.val ∧ r.val ≤ 80 := by
  obtain ⟨a, ha, ha1, ha2⟩ := hacc
  simp only [islandStep]
  by_cases hc : contributes noise (cX + off.1) (cZ + off.2) = true
  · rw [if_pos hc]
    obtain ⟨c, hcand, hc1, hc2⟩ := islandCandidate_range sX sZ off.1 off.2
      (island_size (cX + off.1) (cZ + off.2))
    rw [ha, hcand]
    exact fmax32_range rfl rfl ha1 ha2 hc1 hc2
  · rw [if_neg hc]
    exact ⟨a, ha, ha1, ha2⟩

/-- the neighbor loop preserves number-in-range. -/
theorem foldl_islandStep_range (noise : SimplexNoise) (cX cZ sX sZ : ℤ)
    (l : List (ℤ × ℤ)) :
    ∀ acc, (∃ r, acc = some r ∧ (-100 : ℚ) ≤ r.val ∧ r.val ≤ 80) →
      ∃ r, l.foldl (islandStep noise cX cZ sX sZ) acc = some r ∧
        (-100 : ℚ) ≤ r.val ∧ r.val ≤ 80 := by
  induction l with
  | nil => intro acc h; exact h
  | cons o t ih =>
    intro acc h
    rw [List.foldl_cons]
    exact ih _ (islandStep_preserves noise cX cZ sX sZ acc o h)

/-- a NaN accumulator survives the neighbor loop when nothing contributes. -/
theorem foldl_islandStep_none (noise : SimplexNoise) (cX cZ sX sZ : ℤ)
    (l : List (ℤ × ℤ))
    (h : ∀ off ∈ l, contributes noise (cX + off.1) (cZ + off.2) = false) :
    l.foldl (islandStep noise cX cZ sX sZ) none = none := by
  induction l with
  | nil => rfl
  | cons o t ih =>
    have ho : contributes noise (cX + o.1) (cZ + o.2) = false :=
      h o (List.mem_cons_self o t)
    have hstep : islandStep noise cX cZ sX sZ none o = none := by
      simp only [islandStep]
      rw [if_neg (by rw [ho]; exact Bool.false_ne_true)]
    rw [List.foldl_cons, hstep]
    exact ih fun off hoff => h off (List.mem_cons_of_mem o hoff)

/-- the height value is a number in [-100, 80] whenever the squared section
distance does not overflow i32 (sections up to 32767 in magnitude). -/
theorem get_height_value_range (noise : SimplexNoise) (sX sZ : ℤ)
    (hsx : |sX| ≤ 32767) (hsz : |sZ| ≤ 32767) :
    ∃ r, get_height_value noise sX sZ = some r ∧
      (-100 : ℚ) ≤ r.val ∧ r.val ≤ 80 := by
  have hx2 : sX * sX ≤ 1073676289 := by
    have h5 : |sX| * |sX| ≤ 32767 * 32767 :=
      mul_le_mul hsx hsx (abs_nonneg sX) (by norm_num)
    rw [abs_mul_abs_self] at h5
    linarith
  have hz2 : sZ * sZ ≤ 1073676289 := by
    have h5 : |sZ| * |sZ| ≤ 32767 * 32767 :=
      mul_le_mul hsz hsz (abs_nonneg sZ) (by norm_num)
    rw [abs_mul_abs_self] at h5
    linarith
  have hx0 : 0 ≤ sX * sX := mul_self_nonneg sX
  have hz0 : 0 ≤ sZ * sZ := mul_self_nonneg sZ
  have hkey : get_height_value noise sX sZ =
      neighborOffsets.foldl
        (islandStep noise (Int.tdiv sX 2) (Int.tdiv sZ 2)
          (Int.tmod sX 2) (Int.tmod sZ 2))
        (fclamp (fsub32 (some ⟨100, 0⟩)
          (fmul32 (fsqrt32 (some (rnd32
            ⟨wrap32 (wrap32 (sX * sX) + wrap32 (sZ * sZ)), 0⟩))) (some ⟨8, 0⟩)))
          ⟨-100, 0⟩ ⟨80, 0⟩) := rfl
  rw [hkey,
    show wrap32 (sX * sX) = sX * sX from wrap32_eq_self (by omega) (by omega),
    show wrap32 (sZ * sZ) = sZ * sZ from wrap32_eq_self (by omega) (by omega),
    show wrap32 (sX * sX + sZ * sZ) = sX * sX + sZ * sZ from
      wrap32_eq_self (by omega) (by omega)]
  have hd0 : 0 ≤ (rnd32 ⟨sX * sX + sZ * sZ, 0⟩).val := by
    rw [val_rnd32, val_int]
    exact rndSpec_nonneg (by exact_mod_cast (show (0:ℤ) ≤ sX * sX + sZ * sZ by omega))
  obtain ⟨sr, hsr⟩ := fsqrt32_some_of_nonneg hd0
  rw [hsr]
  exact foldl_islandStep_range noise _ _ _ _ neighborOffsets _
    (fclamp_pm100_80 rfl)

/-- FRepr facts for the endpoints of the claimed sample range. -/
theorem FRepr_neg_2732 : FRepr 53 (-1074) (-(27 / 32) : ℚ) := by
  refine ⟨-27, -5, ?_, by norm_num, by norm_num⟩
  rw [show ((-5 : ℤ)) = -(5 : ℕ) from rfl, zpow_neg]
  push_cast
  norm_num

theorem FRepr_916 : FRepr 53 (-1074) ((9 / 16 : ℚ)) := by
  refine ⟨9, -4, ?_, by norm_num, by norm_num⟩
  rw [show ((-4 : ℤ)) = -(4 : ℕ) from rfl, zpow_neg]
  push_cast
  norm_num

theorem FRepr_neg_108 : FRepr 53 (-1074) (-(108 : ℚ)) := by
  refine ⟨-108, 0, ?_, by norm_num, by norm_num⟩
  norm_num

theorem FRepr_72 : FRepr 53 (-1074) ((72 : ℚ)) := by
  refine ⟨72, 0, ?_, by norm_num, by norm_num⟩
  norm_num

/-- C4: the claimed range holds on the guarded domain — whenever the block
coordinates are at most 262136 in magnitude (so the squared section distance
cannot overflow i32), EndIslands::sample returns a number in
[-0.84375, 0.5625] = [-27/32, 9/16].  Outside the guard the claim fails: at
section (52256, 0), i.e. block x = 418048, the wrapped squared distance is
negative, its square root is NaN, and whenever no neighbor chunk of
(26128, 0) contributes — which numerical simulation shows holds for world
seed 0 — the NaN survives the loop and sample returns NaN, not a number in
any interval. -/
theorem c4_sample_range_and_nan_escape :
    (∀ noise blockX blockY blockZ, |blockX| ≤ 262136 → |blockZ| ≤ 262136 →
      ∃ d, endIslandsSample noise blockX blockY blockZ = some d ∧
        -(27 / 32) ≤ d.val ∧ d.val ≤ 9 / 16) ∧
    fsqrt32 (some (rnd32
      ⟨wrap32 (wrap32 (52256 * 52256) + wrap32 (0 * 0)), 0⟩)) = none ∧
    (∀ noise blockY,
      (∀ off ∈ neighborOffsets,
        contributes noise (26128 + off.1) (0 + off.2) = false) →
      endIslandsSample noise 418048 blockY 0 = none) := by
  have hnansqrt : fsqrt32 (some (rnd32
      ⟨wrap32 (wrap32 (52256 * 52256) + wrap32 (0 * 0)), 0⟩)) = none := by decide
  refine ⟨?_, hnansqrt, ?_⟩
  · intro noise blockX blockY blockZ hbx hbz
    obtain ⟨h, hh, hh1, hh2⟩ := get_height_value_range noise
      (Int.tdiv blockX 8) (Int.tdiv blockZ 8) (tdiv8_abs_le hbx) (tdiv8_abs_le hbz)
    refine ⟨f64div (f64sub h ⟨8, 0⟩) ⟨128, 0⟩, ?_, ?_, ?_⟩
    · rw [show endIslandsSample noise blockX blockY blockZ =
        (get_height_value noise (Int.tdiv blockX 8) (Int.tdiv blockZ 8)).map
          (fun x => f64div (f64sub x ⟨8, 0⟩) ⟨128, 0⟩) from rfl, hh]
      rfl
    · have hv1 : (f64sub h ⟨8, 0⟩).val = rndSpec 53 (-1074) (h.val - 8) := by
        rw [show f64sub h ⟨8, 0⟩ = rnd64 (dySub h ⟨8, 0⟩) from rfl, val_rnd64,
          val_dySub, val_int]
        norm_num
      have hv1lo : -(108 : ℚ) ≤ (f64sub h ⟨8, 0⟩).val := by
        rw [hv1]
        exact le_rndSpec (by norm_num) (by linarith) FRepr_neg_108
      have hv2 : (f64div (f64sub h ⟨8, 0⟩) ⟨128, 0⟩).val =
          rndSpec 53 (-1074) ((f64sub h ⟨8, 0⟩).val / 128) := by
        rw [show f64div (f64sub h ⟨8, 0⟩) ⟨128, 0⟩ =
          dyDiv 53 (-1074) (f64sub h ⟨8, 0⟩) ⟨128, 0⟩ from rfl,
          val_dyDiv (show (Dy.mk 128 0).m ≠ 0 from by norm_num), val_int]
        norm_num
      rw [hv2]
      exact le_rndSpec (by norm_num) (by linarith) FRepr_neg_2732
    · have hv1 : (f64sub h ⟨8, 0⟩).val = rndSpec 53 (-1074) (h.val - 8) := by
        rw [show f64sub h ⟨8, 0⟩ = rnd64 (dySub h ⟨8, 0⟩) from rfl, val_rnd64,
          val_dySub, val_int]
        norm_num
      have hv1hi : (f64sub h ⟨8, 0⟩).val ≤ 72 := by
        rw [hv1]
        exact rndSpec_le (by norm_num) (by linarith) FRepr_72
      have hv2 : (f64div (f64sub h ⟨8, 0⟩) ⟨128, 0⟩).val =
          rndSpec 53 (-1074) ((f64sub h ⟨8, 0⟩).val / 128) := by
        rw [show f64div (f64sub h ⟨8, 0⟩) ⟨128, 0⟩ =
          dyDiv 53 (-1074) (f64sub h ⟨8, 0⟩) ⟨128, 0⟩ from rfl,
          val_dyDiv (show (Dy.mk 128 0).m ≠ 0 from by norm_num), val_int]
        norm_num
      rw [hv2]
      exact rndSpec_le (by norm_num) (by linarith) FRepr_916
  · intro noise blockY hnone
    have hnanclamp : fclamp (fsub32 (some ⟨100, 0⟩)
        (fmul32 (fsqrt32 (some (rnd32
          ⟨wrap32 (wrap32 (52256 * 52256) + wrap32 (0 * 0)), 0⟩))) (some ⟨8, 0⟩)))
        ⟨-100, 0⟩ ⟨80, 0⟩ = none := by
      rw [hnansqrt]
      rfl
    have hkey : get_height_value noise 52256 0 =
        neighborOffsets.foldl
          (islandStep noise (Int.tdiv 52256 2) (Int.tdiv 0 2)
            (Int.tmod 52256 2) (Int.tmod 0 2))
          (fclamp (fsub32 (some ⟨100, 0⟩)
            (fmul32 (fsqrt32 (some (rnd32
              ⟨wrap32 (wrap32 (52256 * 52256) + wrap32 (0 * 0)), 0⟩)))
              (some ⟨8, 0⟩)))
            ⟨-100, 0⟩ ⟨80, 0⟩) := rfl
    have hgh : get_height_value noise 52256 0 = none := by
      rw [hkey, hnanclamp,
        show Int.tdiv 52256 2 = 26128 from by decide,
        show Int.tdiv 0 2 = 0 from by decide]
      exact foldl_islandStep_none noise 26128 0 (Int.tmod 52256 2) (Int.tmod 0 2)
        neighborOffsets hnone
    rw [show endIslandsSample noise 418048 blockY 0 =
      (get_height_value noise (Int.tdiv 418048 8) (Int.tdiv 0 8)).map
        (fun x => f64div (f64sub x ⟨8, 0⟩) ⟨128, 0⟩) from rfl,
      show Int.tdiv 418048 8 = 52256 from by decide,
      show Int.tdiv 0 8 = 0 from by decide, hgh]
    rfl

/-- witness for the guarded part of c4_sample_range_and_nan_escape at the
origin with a trivial permutation state. -/
theorem c4_sample_range_witness :
    ∃ d, endIslandsSample ⟨fun _ => 0, ⟨0, 0⟩, ⟨0, 0⟩, ⟨0, 0⟩⟩ 0 0 0 = some d ∧
      -(27 / 32) ≤ d.val ∧ d.val ≤ 9 / 16 :=
  c4_sample_range_and_nan_escape.1 ⟨fun _ => 0, ⟨0, 0⟩, ⟨0, 0⟩, ⟨0, 0⟩⟩ 0 0 0
    (by decide) (by decide)

/-! ### Density-function transpiler (steel-utils/src/density/transpiler.rs)

The density-function tree from types.rs is embedded with its full variant
structure; payloads that collect_references never inspects (constants, noise
ids, spline locations and derivatives) are elided, and function names are
kept abstract in a type alpha with decidable equality (the code instantiates
them at String).  `Vec<SplinePoint>` becomes the inline list SplinePoints of
the point values.  The BTreeSet of visited names is embedded as a list used
only through membership, and the unbounded recursion of topo_visit gets
explicit fuel; used.length + 1 always suffices, because every level of
nesting marks one previously unvisited used name. -/

mutual

inductive DensityFunction (α : Type) where
  | constant
  | reference (id : α)
  | yClampedGradient
  | noise
  | shiftedNoise (shift_x shift_y shift_z : DensityFunction α)
  | shiftA
  | shiftB
  | shift
  | twoArgumentSimple (argument1 argument2 : DensityFunction α)
  | mapped (input : DensityFunction α)
  | clamp (input : DensityFunction α)
  | rangeChoice (input when_in_range when_out_of_range : DensityFunction α)
  | spline (s : CubicSpline α)
  | blendedNoise
  | weirdScaledSampler (input : DensityFunction α)
  | endIslands
  | blendAlpha
  | blendOffset
  | blendDensity (input : DensityFunction α)
  | marker (wrapped : DensityFunction α)

inductive CubicSpline (α : Type) where
  | mk (coordinate : DensityFunction α) (points : SplinePoints α)

inductive SplinePoints (α : Type) where
  | nil
  | cons (value : SplineValue α) (rest : SplinePoints α)

inductive SplineValue (α : Type) where
  | constant
  | spline (s : CubicSpline α)

end

mutual

/-- translated from collect_refs_inner: walk the tree, pushing each reference
id not already present. -/
def collect_refs_inner {α : Type} [DecidableEq α] :
    DensityFunction α → List α → List α
  | .reference id, refs => if id ∈ refs then refs else refs ++ [id]
  | .marker w, refs => collect_refs_inner w refs
  | .twoArgumentSimple a1 a2, refs => collect_refs_inner a2 (collect_refs_inner a1 refs)
  | .mapped i, refs => collect_refs_inner i refs
  | .clamp i, refs => collect_refs_inner i refs
  | .rangeChoice i r o, refs =>
      collect_refs_inner o (collect_refs_inner r (collect_refs_inner i refs))
  | .shiftedNoise x y z, refs =>
      collect_refs_inner z (collect_refs_inner y (collect_refs_inner x refs))
  | .blendDensity i, refs => collect_refs_inner i refs
  | .weirdScaledSampler i, refs => collect_refs_inner i refs
  | .spline sp, refs => collect_spline_refs sp refs
  | _, refs => refs

/-- translated from collect_spline_refs. -/
def collect_spline_refs {α : Type} [DecidableEq α] :
    CubicSpline α → List α → List α
  | .mk coord points, refs => collect_spline_points points (collect_refs_inner coord refs)

/-- the loop over spline points of collect_spline_refs. -/
def collect_spline_points {α : Type} [DecidableEq α] :
    SplinePoints α → List α → List α
  | .nil, refs => refs
  | .cons .constant t, refs => collect_spline_points t refs
  | .cons (.spline sp) t, refs => collect_spline_points t (collect_spline_refs sp refs)

end

/-- translated from collect_references. -/
def collect_references {α : Type} [DecidableEq α] (df : DensityFunction α) : List α :=
  collect_refs_inner df []

/-- the reference dependencies of a named function: collect_references of its
registry entry, empty when the registry has no entry (topo_visit then skips
the loop). -/
def depsOf {α : Type} [DecidableEq α] (reg : α → Option (DensityFunction α))
    (n : α) : List α :=
  match reg n with
  | some df => collect_references df
  | none => []

/-- translated from topo_visit: the state is (visited, order); skip if
visited, else mark visited, recursively visit the used references of the
registry entry, then emit the name.  Recursion depth is fueled;
used.length + 1 always suffices, because every level of nesting marks one
previously unvisited used name. -/
def topoVisit {α : Type} [DecidableEq α] (reg : α → Option (DensityFunction α))
    (used : List α) : ℕ → α → List α × List α → List α × List α
  | 0 => fun _ st => st
  | fuel + 1 => fun name st =>
    if name ∈ st.1 then st
    else
      let deps := (depsOf reg name).filter fun d => decide (d ∈ used)
      let st2 := deps.foldl (fun acc d => topoVisit reg used fuel d acc)
        (name :: st.1, st.2)
      (st2.1, st2.2 ++ [name])

/-- translated from topological_sort: visit every used name starting from the
empty state. -/
def topological_sort {α : Type} [DecidableEq α]
    (reg : α → Option (DensityFunction α)) (used : List α) : List α :=
  (used.foldl (fun st name => topoVisit reg used (used.length + 1) name st)
    ([], [])).2

/-- an order is good when every listed dependency of an element appears
strictly earlier. -/
inductive GoodOrder {α : Type} (D : α → List α) : List α → Prop where
  | nil : GoodOrder D []
  | snoc {l : List α} {n : α} (hl : GoodOrder D l) (hd : ∀ d ∈ D n, d ∈ l) :
      GoodOrder D (l ++ [n])

/-- in a good order, every dependency of an element lies in the prefix before
that element. -/
theorem GoodOrder.precedes {α : Type} {D : α → List α} {l : List α}
    (h : GoodOrder D l) :
    ∀ pre n post, l = pre ++ n :: post → ∀ d ∈ D n, d ∈ pre := by
  induction h with
  | nil =>
    intro pre n post heq
    exact absurd heq (by simp)
  | @snoc l0 n0 hl hd ih =>
    intro pre n post heq d hdmem
    rcases List.eq_nil_or_concat post with rfl | ⟨post0, m, rfl⟩
    · obtain ⟨hpre, hsing⟩ := List.append_inj' heq (by simp)
      obtain rfl : n0 = n := by simpa using hsing
      subst hpre
      exact hd d hdmem
    · rw [List.concat_eq_append,
        show pre ++ n :: (post0 ++ [m]) = (pre ++ n :: post0) ++ [m] from by
          simp] at heq
      obtain ⟨hinit, _⟩ := List.append_inj' heq (by simp)
      exact ih pre n post0 hinit d hdmem

/-- filtering by a stronger predicate gives at most as many elements. -/
theorem length_filter_mono {α : Type} (l : List α) (p q : α → Bool)
    (h : ∀ a ∈ l, q a = true → p a = true) :
    (l.filter q).length ≤ (l.filter p).length := by
  induction l with
  | nil => simp
  | cons x t ih =>
    have ih2 := ih fun a ha hq => h a (List.mem_cons_of_mem x ha) hq
    rw [List.filter_cons, List.filter_cons]
    by_cases hq : q x = true
    · rw [if_pos hq, if_pos (h x (List.mem_cons_self x t) hq)]
      simpa using ih2
    · rw [if_neg hq]
      by_cases hp : p x = true
      · rw [if_pos hp]
        exact le_trans ih2 (by simp)
      · rw [if_neg hp]
        exact ih2

/-- filtering by a strictly stronger predicate (failing on some member that
the weaker one accepts) gives strictly fewer elements. -/
theorem length_filter_strict {α : Type} (l : List α) (p q : α → Bool) (a : α)
    (ha : a ∈ l) (hpa : p a = true) (hqa : q a = false)
    (h : ∀ x ∈ l, q x = true → p x = true) :
    (l.filter q).length < (l.filter p).length := by
  induction l with
  | nil => cases ha
  | cons x t ih =>
    rw [List.filter_cons, List.filter_cons]
    rcases List.mem_cons.mp ha with heq2 | hat
    · subst heq2
      rw [if_neg (by rw [hqa]; exact Bool.false_ne_true), if_pos hpa]
      have hm := length_filter_mono t p q
        fun y hy hqy => h y (List.mem_cons_of_mem a hy) hqy
      simpa using Nat.lt_succ_of_le hm
    · have ih2 := ih hat fun y hy hqy => h y (List.mem_cons_of_mem x hy) hqy
      by_cases hq : q x = true
      · rw [if_pos hq, if_pos (h x (List.mem_cons_self x t) hq)]
        simpa using ih2
      · rw [if_neg hq]
        by_cases hp : p x = true
        · rw [if_pos hp]
          exact lt_of_lt_of_le ih2 (by simp)
        · rw [if_neg hp]
          exact ih2

/-- state invariant of the topological sort: emitted names are visited and
used, visited names are used, the order has no duplicates and is good. -/
def TopoInv {α : Type} [DecidableEq α] (reg : α → Option (DensityFunction α))
    (used visited order : List α) : Prop :=
  (∀ n ∈ order, n ∈ visited ∧ n ∈ used) ∧
  (∀ n ∈ visited, n ∈ used) ∧
  order.Nodup ∧
  GoodOrder (fun m => (depsOf reg m).filter fun d => decide (d ∈ used)) order

/-- relational postcondition of one topoVisitAux call: visited grows, order
extends on the right, and the set of visited-but-unemitted names is
unchanged. -/
def TopoPost {α : Type} (visited order V O : List α) : Prop :=
  (∀ n ∈ visited, n ∈ V) ∧
  (∃ tail, O = order ++ tail) ∧
  (∀ n, (n ∈ V ∧ n ∉ O) ↔ (n ∈ visited ∧ n ∉ order))

theorem TopoPost.trans {α : Type} {v o v1 o1 v2 o2 : List α}
    (h1 : TopoPost v o v1 o1) (h2 : TopoPost v1 o1 v2 o2) :
    TopoPost v o v2 o2 := by
  obtain ⟨s1, ⟨t1, ht1⟩, i1⟩ := h1
  obtain ⟨s2, ⟨t2, ht2⟩, i2⟩ := h2
  refine ⟨fun n hn => s2 n (s1 n hn), ⟨t1 ++ t2, by rw [ht2, ht1, List.append_assoc]⟩,
    fun n => (i2 n).trans (i1 n)⟩

theorem TopoPost.rfl {α : Type} {v o : List α} : TopoPost v o v o :=
  ⟨fun _ h => h, ⟨[], by simp⟩, fun _ => Iff.rfl⟩

/-- folding a correct single visit over a worklist preserves the invariant,
extends the state, and visits every worklist name. -/
theorem topoFold_spec_aux {α : Type} [DecidableEq α]
    (reg : α → Option (DensityFunction α)) (used : List α) (rank : α → ℕ)
    (fuel : ℕ) (B : ℕ)
    (hvisit : ∀ nm (st : List α × List α), nm ∈ used → rank nm < B →
      (∀ n, n ∈ st.1 → n ∉ st.2 → B ≤ rank n) → TopoInv reg used st.1 st.2 →
      (used.filter fun n => decide (n ∉ st.1)).length < fuel →
      TopoInv reg used (topoVisit reg used fuel nm st).1
          (topoVisit reg used fuel nm st).2 ∧
        TopoPost st.1 st.2 (topoVisit reg used fuel nm st).1
          (topoVisit reg used fuel nm st).2 ∧
        nm ∈ (topoVisit reg used fuel nm st).1) :
    ∀ (ds : List α) (st : List α × List α),
      (∀ d ∈ ds, d ∈ used ∧ rank d < B) →
      (∀ n, n ∈ st.1 → n ∉ st.2 → B ≤ rank n) →
      TopoInv reg used st.1 st.2 →
      (used.filter fun n => decide (n ∉ st.1)).length < fuel →
      TopoInv reg used
          (ds.foldl (fun acc d => topoVisit reg used fuel d acc) st).1
          (ds.foldl (fun acc d => topoVisit reg used fuel d acc) st).2 ∧
        TopoPost st.1 st.2
          (ds.foldl (fun acc d => topoVisit reg used fuel d acc) st).1
          (ds.foldl (fun acc d => topoVisit reg used fuel d acc) st).2 ∧
        (∀ d ∈ ds, d ∈ (ds.foldl (fun acc d => topoVisit reg used fuel d acc) st).1) := by
  intro ds
  induction ds with
  | nil =>
    intro st h1 h2 hinv hfuel
    exact ⟨hinv, TopoPost.rfl, by simp⟩
  | cons d t ih =>
    intro st h1 h2 hinv hfuel
    obtain ⟨hi1, hp1, hd1⟩ := hvisit d st (h1 d (List.mem_cons_self d t)).1
      (h1 d (List.mem_cons_self d t)).2 h2 hinv hfuel
    have h2' : ∀ n, n ∈ (topoVisit reg used fuel d st).1 →
        n ∉ (topoVisit reg used fuel d st).2 → B ≤ rank n := by
      intro n hn hno
      have := (hp1.2.2 n).mp ⟨hn, hno⟩
      exact h2 n this.1 this.2
    have hfuel' : (used.filter fun n =>
        decide (n ∉ (topoVisit reg used fuel d st).1)).length < fuel := by
      have hm := length_filter_mono used (fun n => decide (n ∉ st.1))
        (fun n => decide (n ∉ (topoVisit reg used fuel d st).1))
        (fun x _ hq => by
          simp only [decide_eq_true_eq] at hq ⊢
          exact fun hx => hq (hp1.1 x hx))
      omega
    obtain ⟨hi2, hp2, hall⟩ := ih (topoVisit reg used fuel d st)
      (fun x hx => h1 x (List.mem_cons_of_mem d hx)) h2' hi1 hfuel'
    rw [List.foldl_cons]
    refine ⟨hi2, TopoPost.trans hp1 hp2, ?_⟩
    intro x hx
    rcases List.mem_cons.mp hx with rfl | hxt
    · exact hp2.1 x hd1
    · exact hall x hxt

/-- main invariant theorem for a single topo_visit call: under a rank
function witnessing acyclicity of the used reference graph, the visit
preserves the invariant, only appends to the order, never changes the set of
visited-but-unemitted names, and marks its argument visited. -/
theorem topoVisit_spec {α : Type} [DecidableEq α]
    (reg : α → Option (DensityFunction α)) (used : List α) (rank : α → ℕ)
    (hrank : ∀ n ∈ used, ∀ d ∈ depsOf reg n, d ∈ used → rank d < rank n) :
    ∀ fuel (name : α) (st : List α × List α) (B : ℕ), name ∈ used →
      rank name < B →
      (∀ n, n ∈ st.1 → n ∉ st.2 → B ≤ rank n) →
      TopoInv reg used st.1 st.2 →
      (used.filter fun n => decide (n ∉ st.1)).length < fuel →
      TopoInv reg used (topoVisit reg used fuel name st).1
          (topoVisit reg used fuel name st).2 ∧
        TopoPost st.1 st.2 (topoVisit reg used fuel name st).1
          (topoVisit reg used fuel name st).2 ∧
        name ∈ (topoVisit reg used fuel name st).1 := by
  intro fuel
  induction fuel with
  | zero =>
    intro name st B hnu hnB h2 hinv hfuel
    exact absurd hfuel (by omega)
  | succ fuel ihf =>
    intro name st B hnu hnB h2 hinv hfuel
    by_cases hmem : name ∈ st.1
    · have heq : topoVisit reg used (fuel + 1) name st = st := by
        simp only [topoVisit]
        rw [if_pos hmem]
      rw [heq]
      exact ⟨hinv, TopoPost.rfl, hmem⟩
    · have hno : name ∉ st.2 := fun ho => hmem (hinv.1 name ho).1
      have hpre1 : ∀ d ∈ (depsOf reg name).filter fun d => decide (d ∈ used),
          d ∈ used ∧ rank d < rank name := by
        intro d hd
        have hd2 := List.mem_filter.mp hd
        have hdu : d ∈ used := by simpa using hd2.2
        exact ⟨hdu, hrank name hnu d hd2.1 hdu⟩
      have hpre2 : ∀ n, n ∈ name :: st.1 → n ∉ st.2 → rank name ≤ rank n := by
        intro n hn hno2
        rcases List.mem_cons.mp hn with rfl | hnv
        · exact le_rfl
        · exact le_trans (le_of_lt hnB) (h2 n hnv hno2)
      have hinv' : TopoInv reg used (name :: st.1) st.2 := by
        obtain ⟨i1, i2, i3, i4⟩ := hinv
        exact ⟨fun n hn => ⟨List.mem_cons_of_mem _ (i1 n hn).1, (i1 n hn).2⟩,
          fun n hn => by
            rcases List.mem_cons.mp hn with rfl | h
            · exact hnu
            · exact i2 n h,
          i3, i4⟩
      have hfuel' : (used.filter fun n => decide (n ∉ name :: st.1)).length < fuel := by
        have hs := length_filter_strict used (fun n => decide (n ∉ st.1))
          (fun n => decide (n ∉ name :: st.1)) name hnu
          (by simpa using hmem) (by simp)
          (fun x _ hqx => by
            simp only [decide_eq_true_eq, List.mem_cons, not_or] at hqx ⊢
            exact hqx.2)
        omega
      obtain ⟨hinv2, hpost2, hall2⟩ := topoFold_spec_aux reg used rank fuel
        (rank name)
        (fun nm st0 h1 h2a h3 h4 h5 => ihf nm st0 (rank name) h1 h2a h3 h4 h5)
        ((depsOf reg name).filter fun d => decide (d ∈ used))
        (name :: st.1, st.2) hpre1 hpre2 hinv' hfuel'
      set st2 := ((depsOf reg name).filter fun d => decide (d ∈ used)).foldl
        (fun acc d => topoVisit reg used fuel d acc) (name :: st.1, st.2) with hst2
      have hn_in : name ∈ st2.1 := hpost2.1 name (List.mem_cons_self _ _)
      have hn_notin : name ∉ st2.2 :=
        ((hpost2.2.2 name).mpr ⟨List.mem_cons_self _ _, hno⟩).2
      have hdeps_in : ∀ d ∈ (depsOf reg name).filter fun d => decide (d ∈ used),
          d ∈ st2.2 := by
        intro d hd
        by_contra hdno
        have hd1 : d ∈ st2.1 := hall2 d hd
        have hiff := (hpost2.2.2 d).mp ⟨hd1, hdno⟩
        rcases List.mem_cons.mp hiff.1 with rfl | hdv
        · exact absurd (hpre1 d hd).2 (lt_irrefl _)
        · have hge := h2 d hdv hiff.2
          have hlt := (hpre1 d hd).2
          omega
      have heq : topoVisit reg used (fuel + 1) name st = (st2.1, st2.2 ++ [name]) := by
        simp only [topoVisit]
        rw [if_neg hmem, hst2]
      rw [heq]
      refine ⟨?_, ?_, ?_⟩
      · obtain ⟨j1, j2, j3, j4⟩ := hinv2
        refine ⟨?_, j2, ?_, ?_⟩
        · intro n hn
          rcases List.mem_append.mp hn with h | h
          · exact j1 n h
          · obtain rfl : n = name := by simpa using h
            exact ⟨hn_in, hnu⟩
        · rw [List.nodup_append]
          refine ⟨j3, List.nodup_singleton _, ?_⟩
          intro a ha hb
          obtain rfl : a = name := by simpa using hb
          exact hn_notin ha
        · exact GoodOrder.snoc j4 hdeps_in
      · obtain ⟨s2, ⟨t2, ht2⟩, i2⟩ := hpost2
        refine ⟨fun n hn => s2 n (List.mem_cons_of_mem _ hn),
          ⟨t2 ++ [name], by rw [ht2, List.append_assoc]⟩, ?_⟩
        intro n
        constructor
        · rintro ⟨hnV, hnO⟩
          have hnO2 : n ∉ st2.2 := fun h => hnO (List.mem_append_left _ h)
          have hnn : n ≠ name := by
            intro h
            exact hnO (by rw [h]; exact List.mem_append_right _ (by simp))
          have hiff := (i2 n).mp ⟨hnV, hnO2⟩
          rcases List.mem_cons.mp hiff.1 with rfl | hnv
          · exact absurd rfl hnn
          · exact ⟨hnv, hiff.2⟩
        · rintro ⟨hnv, hno2⟩
          have hnn : n ≠ name := fun h => hmem (h ▸ hnv)
          have hiff := (i2 n).mpr ⟨List.mem_cons_of_mem _ hnv, hno2⟩
          refine ⟨hiff.1, ?_⟩
          intro h
          rcases List.mem_append.mp h with h | h
          · exact hiff.2 h
          · exact hnn (by simpa using h)
      · exact hn_in

/-- every member is bounded by the sum of a ℕ-valued map. -/
theorem rank_le_sum {α : Type} (rank : α → ℕ) :
    ∀ (l : List α) (a : α), a ∈ l → rank a ≤ (l.map rank).sum := by
  intro l
  induction l with
  | nil => intro a ha; cases ha
  | cons x t ih =>
    intro a ha
    rcases List.mem_cons.mp ha with rfl | hat
    · simp
    · have := ih a hat
      simp only [List.map_cons, List.sum_cons]
      omega

/-- C7: under any rank function witnessing acyclicity of the used-name
reference graph (dependencies have strictly smaller rank), topological_sort
returns a duplicate-free sequence containing exactly the used names, in which
every used reference dependency of a function appears strictly before the
function itself. -/
theorem c7_topological_sort {α : Type} [DecidableEq α]
    (reg : α → Option (DensityFunction α)) (used : List α) (rank : α → ℕ)
    (hrank : ∀ n ∈ used, ∀ d ∈ depsOf reg n, d ∈ used → rank d < rank n) :
    (topological_sort reg used).Nodup ∧
    (∀ n, n ∈ topological_sort reg used ↔ n ∈ used) ∧
    (∀ pre n post, topological_sort reg used = pre ++ n :: post →
      ∀ d ∈ depsOf reg n, d ∈ used → d ∈ pre) := by
  have hB : ∀ n ∈ used, rank n < (used.map rank).sum + 1 := by
    intro n hn
    have := rank_le_sum rank used n hn
    omega
  obtain ⟨hinvF, hpostF, hallF⟩ := topoFold_spec_aux reg used rank
    (used.length + 1) ((used.map rank).sum + 1)
    (fun nm st0 h1 h2a h3 h4 h5 =>
      topoVisit_spec reg used rank hrank (used.length + 1) nm st0
        ((used.map rank).sum + 1) h1 h2a h3 h4 h5)
    used (([], []) : List α × List α)
    (fun d hd => ⟨hd, hB d hd⟩)
    (fun n hn _ => absurd hn (List.not_mem_nil n))
    ⟨fun n hn => absurd hn (List.not_mem_nil n),
      fun n hn => absurd hn (List.not_mem_nil n),
      List.nodup_nil, GoodOrder.nil⟩
    (by
      have := List.length_filter_le
        (fun n => decide (n ∉ (([], []) : List α × List α).1)) used
      omega)
  have hts : topological_sort reg used =
      (used.foldl (fun acc d => topoVisit reg used (used.length + 1) d acc)
        (([], []) : List α × List α)).2 := rfl
  obtain ⟨k1, k2, k3, k4⟩ := hinvF
  refine ⟨?_, ?_, ?_⟩
  · rw [hts]
    exact k3
  · intro n
    rw [hts]
    constructor
    · intro h
      exact (k1 n h).2
    · intro h
      have hv := hallF n h
      by_contra hno
      have := (hpostF.2.2 n).mp ⟨hv, hno⟩
      exact absurd this.1 (List.not_mem_nil n)
  · intro pre n post heq d hd hdu
    have heq2 : (used.foldl (fun acc d => topoVisit reg used (used.length + 1) d acc)
        (([], []) : List α × List α)).2 = pre ++ n :: post := by
      rw [← hts]
      exact heq
    exact GoodOrder.precedes k4 pre n post heq2 d
      (List.mem_filter.mpr ⟨hd, by simpa using hdu⟩)

/-- witness for c7_topological_sort on the two-name registry 0 ↦ reference 1,
1 ↦ constant, with rank 0 ↦ 1, 1 ↦ 0. -/
theorem c7_topological_sort_witness :
    (topological_sort
      (fun n : ℕ => if n = 0 then some (DensityFunction.reference 1)
        else if n = 1 then some DensityFunction.constant else none)
      [0, 1]).Nodup ∧
    (0 ∈ topological_sort
      (fun n : ℕ => if n = 0 then some (DensityFunction.reference 1)
        else if n = 1 then some DensityFunction.constant else none)
      [0, 1] ↔ 0 ∈ [0, 1]) :=
  have h := c7_topological_sort
    (fun n : ℕ => if n = 0 then some (DensityFunction.reference 1)
      else if n = 1 then some DensityFunction.constant else none)
    [0, 1] (fun n => if n = 0 then 1 else 0) (by decide)
  ⟨h.1, h.2.1 0⟩

/-! ### Generated column cache (gen_column_cache in transpiler.rs)

The generated struct holds x, z, a validity flag, one f64 field per flat
named function and one per flat router entry.  The generated ensure body is:
early-return when `valid && x == x && z == z`; otherwise store x and z, run
each named statement `let val = compute_i(noises, &*self, x, z);
self.field_i = val;` in order, then the router statements, then set valid.
Field values are an abstract type V, and each compute function is an
arbitrary pure function of the current cache and (x, z) (the noise bundle is
fixed inside it); statement i writes field i. -/

structure ColCache (V : Type) where
  x : ℤ
  z : ℤ
  valid : Bool
  named : List V
  routers : List V

/-- `self.field_i = val` for a named field. -/
def writeNamed {V : Type} (c : ColCache V) (i : ℕ) (v : V) : ColCache V :=
  ColCache.mk c.x c.z c.valid (c.named.set i v) c.routers

/-- `self.field_j = val` for a router field. -/
def writeRouter {V : Type} (c : ColCache V) (i : ℕ) (v : V) : ColCache V :=
  ColCache.mk c.x c.z c.valid c.named (c.routers.set i v)

/-- translated from the generated ensure: early return if the cache is valid
for (x, z); otherwise set x and z, recompute every named field in order, then
every router field, then mark valid. -/
def ensure {V : Type} (namedFns routerFns : List (ColCache V → ℤ → ℤ → V))
    (x z : ℤ) (c : ColCache V) : ColCache V :=
  if c.valid = true ∧ c.x = x ∧ c.z = z then c
  else
    let c1 := ColCache.mk x z c.valid c.named c.routers
    let c2 := ((List.range namedFns.length).zip namedFns).foldl
      (fun acc p => writeNamed acc p.1 (p.2 acc x z)) c1
    let c3 := ((List.range routerFns.length).zip routerFns).foldl
      (fun acc p => writeRouter acc p.1 (p.2 acc x z)) c2
    ColCache.mk c3.x c3.z true c3.named c3.routers

/-- the named-statement fold never touches x, z or valid. -/
theorem foldl_writeNamed_frame {V : Type} (x z : ℤ) :
    ∀ (l : List (ℕ × (ColCache V → ℤ → ℤ → V))) (acc : ColCache V),
      (l.foldl (fun acc p => writeNamed acc p.1 (p.2 acc x z)) acc).x = acc.x ∧
      (l.foldl (fun acc p => writeNamed acc p.1 (p.2 acc x z)) acc).z = acc.z ∧
      (l.foldl (fun acc p => writeNamed acc p.1 (p.2 acc x z)) acc).valid = acc.valid := by
  intro l
  induction l with
  | nil => intro acc; exact ⟨rfl, rfl, rfl⟩
  | cons p t ih =>
    intro acc
    rw [List.foldl_cons]
    exact ih (writeNamed acc p.1 (p.2 acc x z))

/-- the router-statement fold never touches x, z or valid. -/
theorem foldl_writeRouter_frame {V : Type} (x z : ℤ) :
    ∀ (l : List (ℕ × (ColCache V → ℤ → ℤ → V))) (acc : ColCache V),
      (l.foldl (fun acc p => writeRouter acc p.1 (p.2 acc x z)) acc).x = acc.x ∧
      (l.foldl (fun acc p => writeRouter acc p.1 (p.2 acc x z)) acc).z = acc.z ∧
      (l.foldl (fun acc p => writeRouter acc p.1 (p.2 acc x z)) acc).valid = acc.valid := by
  intro l
  induction l with
  | nil => intro acc; exact ⟨rfl, rfl, rfl⟩
  | cons p t ih =>
    intro acc
    rw [List.foldl_cons]
    exact ih (writeRouter acc p.1 (p.2 acc x z))

/-- after ensure(x, z) the cache is valid and stores (x, z). -/
theorem ensure_valid {V : Type} (namedFns routerFns : List (ColCache V → ℤ → ℤ → V))
    (x z : ℤ) (c : ColCache V) :
    (ensure namedFns routerFns x z c).valid = true ∧
    (ensure namedFns routerFns x z c).x = x ∧
    (ensure namedFns routerFns x z c).z = z := by
  unfold ensure
  by_cases hg : c.valid = true ∧ c.x = x ∧ c.z = z
  · rw [if_pos hg]
    exact hg
  · rw [if_neg hg]
    simp only
    obtain ⟨hx2, hz2, hv2x⟩ := foldl_writeRouter_frame x z
      ((List.range routerFns.length).zip routerFns)
      (((List.range namedFns.length).zip namedFns).foldl
        (fun acc p => writeNamed acc p.1 (p.2 acc x z))
        (ColCache.mk x z c.valid c.named c.routers))
    obtain ⟨hx1, hz1, _⟩ := foldl_writeNamed_frame x z
      ((List.range namedFns.length).zip namedFns)
      (ColCache.mk x z c.valid c.named c.routers)
    exact ⟨trivial, by rw [hx2, hx1], by rw [hz2, hz1]⟩

/-- C8: after one ensure(x, z), any number of further ensure(x, z) calls with
the same (x, z) leave the whole cache — every named field, every router
field, the stored x and z and the validity flag — exactly unchanged: the
redundant calls hit the early return. -/
theorem c8_ensure_idempotent {V : Type}
    (namedFns routerFns : List (ColCache V → ℤ → ℤ → V)) (x z : ℤ)
    (c : ColCache V) :
    ensure namedFns routerFns x z (ensure namedFns routerFns x z c) =
      ensure namedFns routerFns x z c ∧
    (∀ n : ℕ, (fun s => ensure namedFns routerFns x z s)^[n]
        (ensure namedFns routerFns x z c) = ensure namedFns routerFns x z c) := by
  have honce : ensure namedFns routerFns x z (ensure namedFns routerFns x z c) =
      ensure namedFns routerFns x z c := by
    obtain ⟨hv, hx, hz⟩ := ensure_valid namedFns routerFns x z c
    unfold ensure
    rw [if_pos ⟨hv, hx, hz⟩]
  refine ⟨honce, ?_⟩
  intro n
  induction n with
  | zero => rfl
  | succ n ih =>
    rw [Function.iterate_succ_apply', ih]
    exact honce

/-! ### Simplex constructor permutation (SimplexNoise::new)

The random source is abstract: a state type sigma with next_f64 and
next_i32_bounded steppers (their implementation, LegacyRandom, is not in the
snapshot); the contract that next_i32_bounded(bound) lies in [0, bound) is a
hypothesis of the theorem.  The 512-entry array is a function from ℕ; the
initial array is identity below 256 and zero elsewhere, matching
`[0i32; 512]` after the identity-initialisation loop. -/

/-- `p.swap(i, j)` on the function model. -/
def fswap (p : ℕ → ℤ) (i j : ℕ) : ℕ → ℤ :=
  fun k => if k = i then p j else if k = j then p i else p k

/-- translated from the Fisher-Yates loop: for i in 0..256,
`let offset = random.next_i32_bounded(256 - i); p.swap(i, offset + i)`. -/
def simplexShuffle {σ : Type} (nextB : σ → ℤ → ℤ × σ)
    (pσ : (ℕ → ℤ) × σ) : (ℕ → ℤ) × σ :=
  (List.range 256).foldl
    (fun acc i =>
      (fswap acc.1 i ((nextB acc.2 (256 - (i : ℤ))).1.toNat + i),
        (nextB acc.2 (256 - (i : ℤ))).2))
    pσ

/-- translated from SimplexNoise::new: three offset draws, identity table,
Fisher-Yates shuffle, mirror of the lower half into the upper half. -/
def simplexNew {σ : Type} (nextF64 : σ → Dy × σ) (nextB : σ → ℤ → ℤ × σ)
    (s0 : σ) : SimplexNoise × σ :=
  let r1 := nextF64 s0
  let xo := f64mul r1.1 ⟨256, 0⟩
  let r2 := nextF64 r1.2
  let yo := f64mul r2.1 ⟨256, 0⟩
  let r3 := nextF64 r2.2
  let zo := f64mul r3.1 ⟨256, 0⟩
  let p0 : ℕ → ℤ := fun i => if i < 256 then (i : ℤ) else 0
  let ps := simplexShuffle nextB (p0, r3.2)
  (⟨fun i => if 256 ≤ i ∧ i < 512 then ps.1 (i - 256) else ps.1 i, xo, yo, zo⟩,
    ps.2)

/-- the permutation invariant on the lower 256 entries: in-range, injective,
surjective onto 0..=255, and zero above. -/
def PermOn256 (p : ℕ → ℤ) : Prop :=
  (∀ i, i < 256 → 0 ≤ p i ∧ p i < 256) ∧
  (∀ i j, i < 256 → j < 256 → p i = p j → i = j) ∧
  (∀ v : ℤ, 0 ≤ v → v < 256 → ∃ i, i < 256 ∧ p i = v) ∧
  (∀ i, 256 ≤ i → p i = 0)

/-- fswap is composition with the transposition of its two indices. -/
theorem fswap_eq (p : ℕ → ℤ) (i j k : ℕ) :
    fswap p i j k = p (Equiv.swap i j k) := by
  unfold fswap
  rw [Equiv.swap_apply_def]
  split_ifs <;> rfl

/-- swapping two indices below 256 preserves the permutation invariant. -/
theorem fswap_perm {p : ℕ → ℤ} {i j : ℕ} (hp : PermOn256 p)
    (hi : i < 256) (hj : j < 256) : PermOn256 (fswap p i j) := by
  obtain ⟨hb, hinj, hsurj, hhigh⟩ := hp
  have hswap_lt : ∀ k, k < 256 → Equiv.swap i j k < 256 := by
    intro k hk
    rw [Equiv.swap_apply_def]
    split_ifs <;> omega
  refine ⟨?_, ?_, ?_, ?_⟩
  · intro k hk
    rw [fswap_eq]
    exact hb _ (hswap_lt k hk)
  · intro a c ha hc heq
    rw [fswap_eq, fswap_eq] at heq
    exact (Equiv.swap i j).injective
      (hinj _ _ (hswap_lt a ha) (hswap_lt c hc) heq)
  · intro v hv1 hv2
    obtain ⟨k, hk, hpk⟩ := hsurj v hv1 hv2
    refine ⟨Equiv.swap i j k, hswap_lt k hk, ?_⟩
    rw [fswap_eq, Equiv.swap_apply_self]
    exact hpk
  · intro k hk
    rw [fswap_eq, Equiv.swap_apply_of_ne_of_ne (by omega) (by omega)]
    exact hhigh k hk

/-- the shuffle fold preserves the permutation invariant. -/
theorem simplexShuffle_fold_perm {σ : Type} (nextB : σ → ℤ → ℤ × σ)
    (hB : ∀ s b, 0 < b → 0 ≤ (nextB s b).1 ∧ (nextB s b).1 < b) :
    ∀ (l : List ℕ), (∀ i ∈ l, i < 256) → ∀ (pσ : (ℕ → ℤ) × σ),
      PermOn256 pσ.1 →
      PermOn256 ((l.foldl
        (fun acc i =>
          (fswap acc.1 i ((nextB acc.2 (256 - (i : ℤ))).1.toNat + i),
            (nextB acc.2 (256 - (i : ℤ))).2))
        pσ).1) := by
  intro l
  induction l with
  | nil => intro _ pσ hp; exact hp
  | cons i t ih =>
    intro hl pσ hp
    rw [List.foldl_cons]
    have hi : i < 256 := hl i (List.mem_cons_self i t)
    have hoff := hB pσ.2 (256 - (i : ℤ)) (by omega)
    have hj : (nextB pσ.2 (256 - (i : ℤ))).1.toNat + i < 256 := by omega
    exact ih (fun x hx => hl x (List.mem_cons_of_mem i hx)) _
      (fswap_perm hp hi hj)

/-- C9: after SimplexNoise::new with any random source whose bounded draw
honours its [0, bound) contract, the first 256 permutation entries are
in-range, injective and surjective onto 0..=255 (a permutation of 0..=255),
and entry i+256 mirrors entry i for every i below 256. -/
theorem c9_simplex_permutation {σ : Type} (nextF64 : σ → Dy × σ)
    (nextB : σ → ℤ → ℤ × σ)
    (hB : ∀ s b, 0 < b → 0 ≤ (nextB s b).1 ∧ (nextB s b).1 < b) (s0 : σ) :
    (∀ i, i < 256 → 0 ≤ (simplexNew nextF64 nextB s0).1.p i ∧
      (simplexNew nextF64 nextB s0).1.p i < 256) ∧
    (∀ i j, i < 256 → j < 256 →
      (simplexNew nextF64 nextB s0).1.p i = (simplexNew nextF64 nextB s0).1.p j →
      i = j) ∧
    (∀ v : ℤ, 0 ≤ v → v < 256 →
      ∃ i, i < 256 ∧ (simplexNew nextF64 nextB s0).1.p i = v) ∧
    (∀ i, i < 256 →
      (simplexNew nextF64 nextB s0).1.p (i + 256) =
        (simplexNew nextF64 nextB s0).1.p i) := by
  have hp0 : PermOn256 (fun i : ℕ => if i < 256 then (i : ℤ) else 0) := by
    refine ⟨?_, ?_, ?_, ?_⟩
    · intro i hi
      simp only []
      rw [if_pos hi]
      constructor <;> [exact Int.ofNat_nonneg i; exact_mod_cast hi]
    · intro i j hi hj heq
      simp only [] at heq
      rw [if_pos hi, if_pos hj] at heq
      exact_mod_cast heq
    · intro v hv1 hv2
      refine ⟨v.toNat, by omega, ?_⟩
      simp only []
      rw [if_pos (by omega)]
      omega
    · intro i hi
      simp only []
      rw [if_neg (by omega)]
  have hperm := simplexShuffle_fold_perm nextB hB (List.range 256)
    (fun i hi => List.mem_range.mp hi)
    ((fun i : ℕ => if i < 256 then (i : ℤ) else 0),
      (nextF64 (nextF64 (nextF64 s0).2).2).2) hp0
  have hpdef : (simplexNew nextF64 nextB s0).1.p =
      fun i => if 256 ≤ i ∧ i < 512 then
        (simplexShuffle nextB
          ((fun i : ℕ => if i < 256 then (i : ℤ) else 0),
            (nextF64 (nextF64 (nextF64 s0).2).2).2)).1 (i - 256)
      else
        (simplexShuffle nextB
          ((fun i : ℕ => if i < 256 then (i : ℤ) else 0),
            (nextF64 (nextF64 (nextF64 s0).2).2).2)).1 i := rfl
  have hq := hperm
  rw [show (List.range 256).foldl
      (fun acc i =>
        (fswap acc.1 i ((nextB acc.2 (256 - (i : ℤ))).1.toNat + i),
          (nextB acc.2 (256 - (i : ℤ))).2))
      ((fun i : ℕ => if i < 256 then (i : ℤ) else 0),
        (nextF64 (nextF64 (nextF64 s0).2).2).2) =
    simplexShuffle nextB
      ((fun i : ℕ => if i < 256 then (i : ℤ) else 0),
        (nextF64 (nextF64 (nextF64 s0).2).2).2) from rfl] at hq
  obtain ⟨qb, qinj, qsurj, qhigh⟩ := hq
  rw [hpdef]
  simp only []
  refine ⟨?_, ?_, ?_, ?_⟩
  · intro i hi
    rw [if_neg (by omega)]
    exact qb i hi
  · intro i j hi hj heq
    rw [if_neg (by omega), if_neg (by omega)] at heq
    exact qinj i j hi hj heq
  · intro v hv1 hv2
    obtain ⟨i, hi, hqi⟩ := qsurj v hv1 hv2
    refine ⟨i, hi, ?_⟩
    rw [if_neg (by omega)]
    exact hqi
  · intro i hi
    rw [if_pos (by omega : 256 ≤ i + 256 ∧ i + 256 < 512), if_neg (by omega)]
    rw [show i + 256 - 256 = i from by omega]

/-- witness for c9_simplex_permutation with the constant-zero random source:
the mirror equation at index 0. -/
theorem c9_simplex_permutation_witness :
    (simplexNew (fun _ : Unit => (⟨0, 0⟩, Unit.unit))
        (fun _ _ => (0, Unit.unit)) Unit.unit).1.p (0 + 256) =
      (simplexNew (fun _ : Unit => (⟨0, 0⟩, Unit.unit))
        (fun _ _ => (0, Unit.unit)) Unit.unit).1.p 0 :=
  (c9_simplex_permutation (fun _ : Unit => (⟨0, 0⟩, Unit.unit))
    (fun _ _ => (0, Unit.unit))
    (fun _ b hb => ⟨le_rfl, hb⟩) Unit.unit).2.2.2 0 (by norm_num)

end SteelMC
